import Mathlib

/-!
Verification of the PQC chat signaling core.

This file gives a shallow embedding, in Lean 4, of the parts of the
repository that the verified properties speak about:

* the room and room-manager registry (src/room.rs),
* the Kyber KEM wrapper and session key derivation (src/crypto/kyber.rs),
* the signaling message type with its length-prefixed framing (src/protocol.rs),
* the server message handler and its broadcast helpers (src/server/main.rs),
* the real-time audio jitter buffer (src/udp_audio.rs).

Rust HashMap values are embedded as association lists with
overwrite-on-insert semantics; machine integers are embedded as Nat with
explicit reductions modulo 2 ^ w where the code can overflow; fallible
operations return Except or Option.  Code living in external crates
(pqcrypto_kyber, serde_json, std DefaultHasher) is modelled from the
specification and is marked as such in its doc comment.
-/

namespace PQCChat

/-! ## Association-list model of Rust HashMap -/

/-- Lookup in an association list: the first binding of the key wins.
This is the model of HashMap::get. -/
def lookupA {κ α : Type} [DecidableEq κ] (k : κ) : List (κ × α) → Option α
  | [] => none
  | (k', v) :: rest => if k' = k then some v else lookupA k rest

/-- Removal of a key: the model of HashMap::remove applied to the map
(the returned value, when needed, is read off with lookupA first). -/
def eraseA {κ α : Type} [DecidableEq κ] (k : κ) (l : List (κ × α)) : List (κ × α) :=
  l.filter (fun p => p.1 ≠ k)

/-- Insertion with overwrite: the model of HashMap::insert. -/
def insertA {κ α : Type} [DecidableEq κ] (k : κ) (v : α) (l : List (κ × α)) : List (κ × α) :=
  (k, v) :: eraseA k l

/-- The keys of an association list. -/
def keysA {κ α : Type} (l : List (κ × α)) : List κ :=
  l.map Prod.fst

/-- An association list is a well-formed map when its keys are distinct. -/
def nodupKeys {κ α : Type} (l : List (κ × α)) : Prop :=
  (keysA l).Nodup

theorem eraseA_cons {κ α : Type} [DecidableEq κ] (k : κ) (hd : κ × α) (tl : List (κ × α)) :
    eraseA k (hd :: tl) = if hd.1 = k then eraseA k tl else hd :: eraseA k tl := by
  by_cases h : hd.1 = k <;> simp [eraseA, List.filter_cons, h]

theorem lookupA_cons {κ α : Type} [DecidableEq κ] (k : κ) (hd : κ × α) (tl : List (κ × α)) :
    lookupA k (hd :: tl) = if hd.1 = k then some hd.2 else lookupA k tl := by
  cases hd
  rfl

theorem lookupA_eraseA_self {κ α : Type} [DecidableEq κ] (k : κ) (l : List (κ × α)) :
    lookupA k (eraseA k l) = none := by
  induction l with
  | nil => rfl
  | cons hd tl ih =>
    rw [eraseA_cons]
    by_cases h : hd.1 = k
    · simpa [h] using ih
    · simpa [h, lookupA] using ih

theorem lookupA_eraseA_of_ne {κ α : Type} [DecidableEq κ] {k' k : κ} (h : k' ≠ k)
    (l : List (κ × α)) : lookupA k' (eraseA k l) = lookupA k' l := by
  induction l with
  | nil => rfl
  | cons hd tl ih =>
    rw [eraseA_cons]
    by_cases hk : hd.1 = k
    · have hne : ¬hd.1 = k' := by
        rw [hk]; exact Ne.symm h
      rw [if_pos hk, ih]
      simp [lookupA, hne]
    · rw [if_neg hk]
      by_cases hk' : hd.1 = k'
      · simp [lookupA, hk']
      · simp [lookupA, hk', ih]

theorem lookupA_insertA_self {κ α : Type} [DecidableEq κ] (k : κ) (v : α)
    (l : List (κ × α)) : lookupA k (insertA k v l) = some v := by
  simp [insertA, lookupA]

theorem lookupA_insertA_of_ne {κ α : Type} [DecidableEq κ] {k' k : κ} (h : k' ≠ k) (v : α)
    (l : List (κ × α)) : lookupA k' (insertA k v l) = lookupA k' l := by
  have : k ≠ k' := Ne.symm h
  simp [insertA, lookupA, this, lookupA_eraseA_of_ne h]

theorem length_eraseA_le {κ α : Type} [DecidableEq κ] (k : κ) (l : List (κ × α)) :
    (eraseA k l).length ≤ l.length :=
  List.length_filter_le _ l

theorem mem_keysA_of_lookupA_isSome {κ α : Type} [DecidableEq κ] {k : κ} {l : List (κ × α)}
    (h : (lookupA k l).isSome) : k ∈ keysA l := by
  induction l with
  | nil => simp [lookupA] at h
  | cons hd tl ih =>
    by_cases hk : hd.1 = k
    · simp [keysA, hk]
    · simp only [lookupA, hk, if_false] at h
      simpa [keysA] using Or.inr (by simpa [keysA] using ih h)

theorem lookupA_isSome_of_mem_keysA {κ α : Type} [DecidableEq κ] {k : κ} {l : List (κ × α)}
    (h : k ∈ keysA l) : (lookupA k l).isSome := by
  induction l with
  | nil => simp [keysA] at h
  | cons hd tl ih =>
    by_cases hk : hd.1 = k
    · simp [lookupA, hk]
    · have : k ∈ keysA tl := by
        rcases (by simpa [keysA] using h : k = hd.1 ∨ k ∈ List.map Prod.fst tl) with h1 | h1
        · exact absurd h1.symm hk
        · simpa [keysA] using h1
      simpa [lookupA, hk] using ih this

theorem mem_keysA_eraseA {κ α : Type} [DecidableEq κ] {x k : κ} {l : List (κ × α)}
    (h : x ∈ keysA (eraseA k l)) : x ∈ keysA l := by
  rcases List.mem_map.mp h with ⟨p, hp, hpe⟩
  exact List.mem_map.mpr ⟨p, (List.mem_filter.mp hp).1, hpe⟩

theorem nodupKeys_eraseA {κ α : Type} [DecidableEq κ] (k : κ) {l : List (κ × α)}
    (h : nodupKeys l) : nodupKeys (eraseA k l) := by
  induction l with
  | nil => simpa using h
  | cons hd tl ih =>
    unfold nodupKeys keysA at h
    simp only [List.map_cons, List.nodup_cons] at h
    rw [eraseA_cons]
    by_cases hk : hd.1 = k
    · simpa [hk] using ih h.2
    · simp only [hk, if_false]
      unfold nodupKeys keysA
      refine List.nodup_cons.mpr ⟨?_, ih h.2⟩
      intro hmem
      exact h.1 (mem_keysA_eraseA hmem)

theorem not_mem_keysA_eraseA {κ α : Type} [DecidableEq κ] (k : κ) (l : List (κ × α)) :
    k ∉ keysA (eraseA k l) := by
  intro h
  have := lookupA_isSome_of_mem_keysA h
  rw [lookupA_eraseA_self] at this
  simp at this

theorem nodupKeys_insertA {κ α : Type} [DecidableEq κ] (k : κ) (v : α) {l : List (κ × α)}
    (h : nodupKeys l) : nodupKeys (insertA k v l) := by
  have h1 : nodupKeys (eraseA k l) := nodupKeys_eraseA k h
  unfold nodupKeys keysA insertA at *
  exact List.nodup_cons.mpr ⟨not_mem_keysA_eraseA k l, h1⟩

theorem lookupA_foldl_eraseA {κ α : Type} [DecidableEq κ] (x : κ) (ks : List κ)
    (l : List (κ × α)) :
    lookupA x (ks.foldl (fun acc k => eraseA k acc) l) =
      if x ∈ ks then none else lookupA x l := by
  induction ks generalizing l with
  | nil => simp
  | cons k ks ih =>
    rw [List.foldl_cons, ih]
    by_cases hx : x ∈ ks
    · simp [hx]
    · by_cases hk : x = k
      · simp [hx, hk, lookupA_eraseA_self]
      · simp [hx, hk, lookupA_eraseA_of_ne hk]

theorem nodupKeys_foldl_eraseA {κ α : Type} [DecidableEq κ] (ks : List κ)
    {l : List (κ × α)} (h : nodupKeys l) :
    nodupKeys (ks.foldl (fun acc k => eraseA k acc) l) := by
  induction ks generalizing l with
  | nil => simpa using h
  | cons k ks ih => exact ih (nodupKeys_eraseA k h)

/-! ## Room and RoomManager (src/room.rs) -/

/-- A participant in a room (struct Participant, src/room.rs).  The Rust
field joined_at of type SystemTime is embedded as a Nat timestamp taken as
an explicit argument of Participant.new. -/
structure Participant where
  id : String
  username : String
  joinedAt : Nat
  audioEnabled : Bool
  videoEnabled : Bool
deriving DecidableEq, Repr

/-- Participant::new, src/room.rs: audio and video start enabled. -/
def Participant.new (id username : String) (now : Nat) : Participant :=
  ⟨id, username, now, true, true⟩

/-- Room errors (enum RoomError, src/room.rs). -/
inductive RoomError where
  | roomFull
  | roomLocked
  | roomNotFound
  | participantNotFound
  | alreadyInRoom
deriving DecidableEq, Repr

/-- A chat room (struct Room, src/room.rs).  The RwLock around the
participants map disappears in this sequential embedding; Uuid::new_v4 and
SystemTime::now become explicit arguments of RoomS.new. -/
structure RoomS where
  id : String
  name : String
  createdAt : Nat
  maxParticipants : Nat
  isLocked : Bool
  participants : List (String × Participant)
deriving DecidableEq, Repr

/-- Room::new, src/room.rs: freshly created rooms are unlocked and empty. -/
def RoomS.new (uuid name : String) (maxParticipants now : Nat) : RoomS :=
  ⟨uuid, name, now, maxParticipants, false, []⟩

/-- Room::add_participant, src/room.rs: reject when locked, then reject when
the map already holds max_participants entries, otherwise insert keyed by
the participant id.  The state after the call is returned alongside the
Result. -/
def RoomS.addParticipant (r : RoomS) (p : Participant) : Except RoomError Unit × RoomS :=
  if r.isLocked then (.error .roomLocked, r)
  else if r.participants.length ≥ r.maxParticipants then (.error .roomFull, r)
  else (.ok (), { r with participants := insertA p.id p r.participants })

/-- Room::remove_participant, src/room.rs. -/
def RoomS.removeParticipant (r : RoomS) (pid : String) : Option Participant × RoomS :=
  (lookupA pid r.participants, { r with participants := eraseA pid r.participants })

/-- Room::get_participant, src/room.rs. -/
def RoomS.getParticipant (r : RoomS) (pid : String) : Option Participant :=
  lookupA pid r.participants

/-- Room::get_participant_ids, src/room.rs. -/
def RoomS.getParticipantIds (r : RoomS) : List String :=
  keysA r.participants

/-- Room::participant_count, src/room.rs. -/
def RoomS.participantCount (r : RoomS) : Nat :=
  r.participants.length

/-- The room registry (struct RoomManager, src/room.rs): the map of rooms
keyed by room id, and the reverse index from participant id to room id. -/
structure RoomManager where
  rooms : List (String × RoomS)
  participantRooms : List (String × String)
deriving Repr

/-- RoomManager::new, src/room.rs. -/
def RoomManager.new : RoomManager :=
  ⟨[], []⟩

/-- RoomManager::create_room, src/room.rs: build the room and insert it
under its id.  The fresh Uuid and the current time are explicit inputs. -/
def RoomManager.createRoom (m : RoomManager) (uuid name : String) (maxParticipants now : Nat) :
    RoomS × RoomManager :=
  let room := RoomS.new uuid name maxParticipants now
  (room, { m with rooms := insertA room.id room m.rooms })

/-- RoomManager::get_room, src/room.rs. -/
def RoomManager.getRoom (m : RoomManager) (roomId : String) : Option RoomS :=
  lookupA roomId m.rooms

/-- RoomManager::leave_room, src/room.rs: remove the reverse-index entry
(failing with ParticipantNotFound when absent), then, if the indexed room
still exists, remove the participant from it. -/
def RoomManager.leaveRoom (m : RoomManager) (pid : String) :
    Except RoomError Unit × RoomManager :=
  match lookupA pid m.participantRooms with
  | none => (.error .participantNotFound, m)
  | some roomId =>
    let m1 : RoomManager := { m with participantRooms := eraseA pid m.participantRooms }
    match lookupA roomId m1.rooms with
    | some room =>
      (.ok (), { m1 with rooms := insertA roomId (room.removeParticipant pid).2 m1.rooms })
    | none => (.ok (), m1)

/-- The second half of RoomManager::join_room, src/room.rs, after the
implicit leave: look up the target room, try to add the participant to it,
and on success record both the updated room and the reverse-index entry. -/
def RoomManager.joinRoomCore (m1 : RoomManager) (roomId : String) (p : Participant) :
    Except RoomError RoomS × RoomManager :=
  match lookupA roomId m1.rooms with
  | none => (.error .roomNotFound, m1)
  | some room =>
    match room.addParticipant p with
    | (.error e, _) => (.error e, m1)
    | (.ok (), room') =>
      (.ok room',
       { rooms := insertA roomId room' m1.rooms,
         participantRooms := insertA p.id roomId m1.participantRooms })

/-- RoomManager::join_room, src/room.rs: if the participant is already
indexed to a room, leave it first (propagating a failure of the leave, which
in fact cannot happen), then proceed with the target room. -/
def RoomManager.joinRoom (m : RoomManager) (roomId : String) (p : Participant) :
    Except RoomError RoomS × RoomManager :=
  match (if (lookupA p.id m.participantRooms).isSome then m.leaveRoom p.id
         else (.ok (), m) : Except RoomError Unit × RoomManager) with
  | (.error e, m1) => (.error e, m1)
  | (.ok (), m1) => m1.joinRoomCore roomId p

/-- RoomManager::get_participant_room, src/room.rs. -/
def RoomManager.getParticipantRoom (m : RoomManager) (pid : String) : Option RoomS :=
  (lookupA pid m.participantRooms).bind fun roomId => m.getRoom roomId

/-- RoomManager::delete_room, src/room.rs: remove the room and erase every
one of its members from the reverse index. -/
def RoomManager.deleteRoom (m : RoomManager) (roomId : String) : Bool × RoomManager :=
  match lookupA roomId m.rooms with
  | none => (false, m)
  | some room =>
    (true,
     { rooms := eraseA roomId m.rooms,
       participantRooms :=
         room.getParticipantIds.foldl (fun acc pid => eraseA pid acc) m.participantRooms })

/-- One RoomManager operation, for reachability over operation sequences. -/
inductive ManagerOp where
  | createRoom (uuid name : String) (maxParticipants now : Nat)
  | joinRoom (roomId : String) (p : Participant)
  | leaveRoom (pid : String)
  | deleteRoom (roomId : String)

/-- Apply one operation, keeping only the state (results are discarded). -/
def RoomManager.applyOp (m : RoomManager) : ManagerOp → RoomManager
  | .createRoom uuid name maxParticipants now => (m.createRoom uuid name maxParticipants now).2
  | .joinRoom roomId p => (m.joinRoom roomId p).2
  | .leaveRoom pid => (m.leaveRoom pid).2
  | .deleteRoom roomId => (m.deleteRoom roomId).2

/-- The manager state reached from a fresh manager by a sequence of
operations. -/
def RoomManager.run (ops : List ManagerOp) : RoomManager :=
  ops.foldl RoomManager.applyOp RoomManager.new

/-- The membership coherence invariant: whenever a registered room holds a
participant, the reverse index maps that participant to this room, and the
reverse index has no duplicate keys. -/
def ManagerInv (m : RoomManager) : Prop :=
  nodupKeys m.participantRooms ∧
  ∀ rid r pid, lookupA rid m.rooms = some r → (lookupA pid r.participants).isSome →
    lookupA pid m.participantRooms = some rid

theorem managerInv_new : ManagerInv RoomManager.new := by
  constructor
  · simp [RoomManager.new, nodupKeys, keysA]
  · intro rid r pid h
    simp [RoomManager.new, lookupA] at h

theorem managerInv_createRoom {m : RoomManager} (h : ManagerInv m)
    (uuid name : String) (maxParticipants now : Nat) :
    ManagerInv (m.createRoom uuid name maxParticipants now).2 := by
  obtain ⟨hnd, hinv⟩ := h
  refine ⟨hnd, ?_⟩
  intro rid r pid hr hp
  simp only [RoomManager.createRoom] at hr
  by_cases hid : rid = uuid
  · subst hid
    rw [show (RoomS.new rid name maxParticipants now).id = rid from rfl] at hr
    rw [lookupA_insertA_self] at hr
    cases hr
    simp [RoomS.new, lookupA] at hp
  · rw [show (RoomS.new uuid name maxParticipants now).id = uuid from rfl] at hr
    rw [lookupA_insertA_of_ne hid] at hr
    exact hinv rid r pid hr hp

theorem managerInv_leaveRoom {m : RoomManager} (h : ManagerInv m) (pid : String) :
    ManagerInv (m.leaveRoom pid).2 := by
  obtain ⟨hnd, hinv⟩ := h
  unfold RoomManager.leaveRoom
  cases hidx : lookupA pid m.participantRooms with
  | none => exact ⟨hnd, hinv⟩
  | some roomId =>
    simp only
    cases hroom : lookupA roomId m.rooms with
    | none =>
      refine ⟨nodupKeys_eraseA pid hnd, ?_⟩
      intro rid r pid' hr hp
      have hold := hinv rid r pid' hr hp
      by_cases hpp : pid' = pid
      · subst hpp
        rw [hidx] at hold
        cases hold
        rw [hr] at hroom
        cases hroom
      · rw [lookupA_eraseA_of_ne hpp]
        exact hold
    | some room =>
      refine ⟨nodupKeys_eraseA pid hnd, ?_⟩
      intro rid r pid' hr hp
      by_cases hrid : rid = roomId
      · subst hrid
        rw [lookupA_insertA_self] at hr
        cases hr
        simp only [RoomS.removeParticipant] at hp
        by_cases hpp : pid' = pid
        · subst hpp
          rw [lookupA_eraseA_self] at hp
          simp at hp
        · rw [lookupA_eraseA_of_ne hpp] at hp
          have hold := hinv rid room pid' hroom hp
          rw [lookupA_eraseA_of_ne hpp]
          exact hold
      · rw [lookupA_insertA_of_ne hrid] at hr
        have hold := hinv rid r pid' hr hp
        by_cases hpp : pid' = pid
        · subst hpp
          rw [hidx] at hold
          cases hold
          exact absurd rfl hrid
        · rw [lookupA_eraseA_of_ne hpp]
          exact hold

theorem leaveRoom_clears_index (m : RoomManager) (pid : String) :
    lookupA pid (m.leaveRoom pid).2.participantRooms = none ∨
      (m.leaveRoom pid).2 = m ∧ lookupA pid m.participantRooms = none := by
  unfold RoomManager.leaveRoom
  cases hidx : lookupA pid m.participantRooms with
  | none => exact Or.inr ⟨rfl, rfl⟩
  | some roomId =>
    simp only
    cases hroom : lookupA roomId m.rooms with
    | none => exact Or.inl (lookupA_eraseA_self pid m.participantRooms)
    | some room => exact Or.inl (lookupA_eraseA_self pid m.participantRooms)

theorem addParticipant_error {r : RoomS} {p : Participant} {e : RoomError} {r' : RoomS}
    (h : r.addParticipant p = (.error e, r')) : r' = r := by
  unfold RoomS.addParticipant at h
  split_ifs at h <;> cases h <;> rfl

theorem addParticipant_ok {r : RoomS} {p : Participant} {u : Unit} {r' : RoomS}
    (h : r.addParticipant p = (.ok u, r')) :
    r' = { r with participants := insertA p.id p r.participants } ∧
      r.isLocked = false ∧ r.participants.length < r.maxParticipants := by
  unfold RoomS.addParticipant at h
  split_ifs at h with h1 h2
  · cases h
  · cases h
  · refine ⟨?_, by simpa using h1, by omega⟩
    exact (by simpa using congrArg Prod.snd h : _ = r').symm

theorem managerInv_joinRoomCore {m1 : RoomManager} {p : Participant} (h : ManagerInv m1)
    (hnone : lookupA p.id m1.participantRooms = none) (roomId : String) :
    ManagerInv (m1.joinRoomCore roomId p).2 := by
  unfold RoomManager.joinRoomCore
  split
  · exact h
  · rename_i room hroom
    split
    · exact h
    · rename_i u room' hadd
      show ManagerInv
        { rooms := insertA roomId room' m1.rooms,
          participantRooms := insertA p.id roomId m1.participantRooms }
      obtain ⟨hchar, _, _⟩ := addParticipant_ok hadd
      subst hchar
      obtain ⟨hnd, hinv⟩ := h
      refine ⟨nodupKeys_insertA _ _ hnd, ?_⟩
      intro rid r pid' hr hp
      simp only at hr hp ⊢
      by_cases hrid : rid = roomId
      · subst hrid
        rw [lookupA_insertA_self] at hr
        cases hr
        simp only at hp
        by_cases hpp : pid' = p.id
        · subst hpp
          exact lookupA_insertA_self p.id _ m1.participantRooms
        · rw [lookupA_insertA_of_ne hpp] at hp
          have hold := hinv rid room pid' hroom hp
          rw [lookupA_insertA_of_ne hpp]
          exact hold
      · rw [lookupA_insertA_of_ne hrid] at hr
        have hold := hinv rid r pid' hr hp
        by_cases hpp : pid' = p.id
        · subst hpp
          rw [hnone] at hold
          cases hold
        · rw [lookupA_insertA_of_ne hpp]
          exact hold

theorem managerInv_joinRoom {m : RoomManager} (h : ManagerInv m)
    (roomId : String) (p : Participant) :
    ManagerInv (m.joinRoom roomId p).2 := by
  unfold RoomManager.joinRoom
  by_cases hpre : (lookupA p.id m.participantRooms).isSome
  case neg =>
    simp only [hpre, if_false]
    have hnone : lookupA p.id m.participantRooms = none := by
      cases hl : lookupA p.id m.participantRooms with
      | none => rfl
      | some v => rw [hl] at hpre; simp at hpre
    exact managerInv_joinRoomCore h hnone roomId
  case pos =>
    simp only [hpre, if_true]
    have h1 : ManagerInv (m.leaveRoom p.id).2 := managerInv_leaveRoom h p.id
    cases hlv : m.leaveRoom p.id with
    | mk res m1 =>
      rw [hlv] at h1
      cases res with
      | error e => exact h1
      | ok u =>
        cases u
        have hnone : lookupA p.id m1.participantRooms = none := by
          rcases leaveRoom_clears_index m p.id with hcl | ⟨heq, hcl⟩
          · rw [hlv] at hcl
            exact hcl
          · rw [hlv] at heq
            simp only at heq
            rw [heq]
            exact hcl
        exact managerInv_joinRoomCore h1 hnone roomId

theorem managerInv_deleteRoom {m : RoomManager} (h : ManagerInv m) (roomId : String) :
    ManagerInv (m.deleteRoom roomId).2 := by
  obtain ⟨hnd, hinv⟩ := h
  unfold RoomManager.deleteRoom
  cases hroom : lookupA roomId m.rooms with
  | none => exact ⟨hnd, hinv⟩
  | some room =>
    refine ⟨nodupKeys_foldl_eraseA _ hnd, ?_⟩
    intro rid r pid' hr hp
    simp only at hr hp ⊢
    have hrid : rid ≠ roomId := by
      intro heq
      subst heq
      rw [lookupA_eraseA_self] at hr
      cases hr
    rw [lookupA_eraseA_of_ne hrid] at hr
    have hold := hinv rid r pid' hr hp
    rw [lookupA_foldl_eraseA]
    have hnotin : pid' ∉ room.getParticipantIds := by
      intro hin
      have hsome := lookupA_isSome_of_mem_keysA (by simpa [RoomS.getParticipantIds] using hin)
      have := hinv roomId room pid' hroom hsome
      rw [hold] at this
      cases this
      exact hrid rfl
    simp [hnotin, hold]

theorem managerInv_applyOp {m : RoomManager} (h : ManagerInv m) (op : ManagerOp) :
    ManagerInv (m.applyOp op) := by
  cases op with
  | createRoom uuid name maxParticipants now => exact managerInv_createRoom h uuid name maxParticipants now
  | joinRoom roomId p => exact managerInv_joinRoom h roomId p
  | leaveRoom pid => exact managerInv_leaveRoom h pid
  | deleteRoom roomId => exact managerInv_deleteRoom h roomId

theorem managerInv_run (ops : List ManagerOp) : ManagerInv (RoomManager.run ops) := by
  unfold RoomManager.run
  have aux : ∀ (l : List ManagerOp) (m : RoomManager), ManagerInv m →
      ManagerInv (l.foldl RoomManager.applyOp m) := by
    intro l
    induction l with
    | nil => intro m hm; exact hm
    | cons op l ih => intro m hm; exact ih _ (managerInv_applyOp hm op)
  exact aux ops RoomManager.new managerInv_new

/-- C1: for every sequence of RoomManager operations starting from a fresh
manager, every participant id is a member of at most one room: whenever two
registered rooms both contain a participant, they are the same room, and the
reverse participant-to-room index holds at most one entry per participant
(its keys are distinct). -/
theorem c1_roomManager_at_most_one_room (ops : List ManagerOp)
    (pid rid1 rid2 : String) (r1 r2 : RoomS)
    (h1 : lookupA rid1 (RoomManager.run ops).rooms = some r1)
    (h2 : lookupA rid2 (RoomManager.run ops).rooms = some r2)
    (hm1 : (lookupA pid r1.participants).isSome)
    (hm2 : (lookupA pid r2.participants).isSome) :
    rid1 = rid2 ∧ nodupKeys (RoomManager.run ops).participantRooms := by
  obtain ⟨hnd, hinv⟩ := managerInv_run ops
  have e1 := hinv rid1 r1 pid h1 hm1
  have e2 := hinv rid2 r2 pid h2 hm2
  exact ⟨Option.some.inj (e1.symm.trans e2), hnd⟩

/-- Witness for C1 at a concrete operation sequence: create a room, have a
participant join a first room and then a second one; the participant is only
a member of the room joined last. -/
theorem c1_roomManager_at_most_one_room_witness :
    ("rB" : String) = "rB" ∧
      nodupKeys (RoomManager.run
        [ManagerOp.createRoom "rA" "RoomA" 10 0,
         ManagerOp.createRoom "rB" "RoomB" 10 1,
         ManagerOp.joinRoom "rA" (Participant.new "p1" "Alice" 2),
         ManagerOp.joinRoom "rB" (Participant.new "p1" "Alice" 3)]).participantRooms :=
  c1_roomManager_at_most_one_room
    [ManagerOp.createRoom "rA" "RoomA" 10 0,
     ManagerOp.createRoom "rB" "RoomB" 10 1,
     ManagerOp.joinRoom "rA" (Participant.new "p1" "Alice" 2),
     ManagerOp.joinRoom "rB" (Participant.new "p1" "Alice" 3)]
    "p1" "rB" "rB"
    ⟨"rB", "RoomB", 1, 10, false, [("p1", Participant.new "p1" "Alice" 3)]⟩
    ⟨"rB", "RoomB", 1, 10, false, [("p1", Participant.new "p1" "Alice" 3)]⟩
    (by decide) (by decide) (by decide) (by decide)

/-! ## C2: room capacity -/

/-- One Room-level operation (Room::add_participant or
Room::remove_participant, src/room.rs). -/
inductive RoomOp where
  | add (p : Participant)
  | remove (pid : String)

/-- Apply one Room operation, keeping only the state. -/
def RoomS.applyOp (r : RoomS) : RoomOp → RoomS
  | .add p => (r.addParticipant p).2
  | .remove pid => (r.removeParticipant pid).2

/-- The room state reached from a given room by a sequence of operations. -/
def RoomS.runOps (r : RoomS) (ops : List RoomOp) : RoomS :=
  ops.foldl RoomS.applyOp r

theorem applyOp_maxParticipants (r : RoomS) (op : RoomOp) :
    (r.applyOp op).maxParticipants = r.maxParticipants := by
  cases op with
  | add p =>
    show (r.addParticipant p).2.maxParticipants = _
    unfold RoomS.addParticipant
    split_ifs <;> rfl
  | remove pid => rfl

theorem applyOp_count {r : RoomS} (h : r.participantCount ≤ r.maxParticipants)
    (op : RoomOp) : (r.applyOp op).participantCount ≤ (r.applyOp op).maxParticipants := by
  rw [applyOp_maxParticipants]
  cases op with
  | add p =>
    show (r.addParticipant p).2.participantCount ≤ _
    unfold RoomS.addParticipant
    split_ifs with h1 h2
    · exact h
    · exact h
    · show (insertA p.id p r.participants).length ≤ r.maxParticipants
      have : (eraseA p.id r.participants).length + 1 ≤ r.participants.length + 1 :=
        Nat.succ_le_succ (length_eraseA_le _ _)
      calc (insertA p.id p r.participants).length
          = (eraseA p.id r.participants).length + 1 := by simp [insertA]
        _ ≤ r.participants.length + 1 := this
        _ ≤ r.maxParticipants := by omega
  | remove pid =>
    show (eraseA pid r.participants).length ≤ _
    exact le_trans (length_eraseA_le _ _) h

theorem runOps_count {r : RoomS} (h : r.participantCount ≤ r.maxParticipants)
    (ops : List RoomOp) : (r.runOps ops).participantCount ≤ (r.runOps ops).maxParticipants := by
  induction ops generalizing r with
  | nil => exact h
  | cons op ops ih => exact ih (applyOp_count h op)

/-- First scenario step of spec section 8: p1 joins room Test with max 2. -/
def c2Step1 : Except RoomError Unit × RoomS :=
  (RoomS.new "rid" "Test" 2 0).addParticipant (Participant.new "p1" "User1" 1)

/-- Second scenario step: p2 joins. -/
def c2Step2 : Except RoomError Unit × RoomS :=
  c2Step1.2.addParticipant (Participant.new "p2" "User2" 2)

/-- Third scenario step: p3 tries to join the full room. -/
def c2Step3 : Except RoomError Unit × RoomS :=
  c2Step2.2.addParticipant (Participant.new "p3" "User3" 3)

/-- Fourth scenario step: p1 leaves, then p3 joins again. -/
def c2Step4 : Except RoomError Unit × RoomS :=
  (c2Step3.2.removeParticipant "p1").2.addParticipant (Participant.new "p3" "User3" 3)

/-- C2: participant_count is at most max_participants after every sequence
of add/remove operations on a freshly created room; a locked room rejects
joins with RoomLocked and keeps its membership; an unlocked room at capacity
rejects joins with RoomFull and keeps its membership; and the concrete
max-2 scenario behaves as specified: p1 and p2 join, p3 is rejected with
RoomFull, p1 leaves, then p3 is admitted. -/
theorem c2_room_capacity (uuid name : String) (maxParticipants now : Nat)
    (ops : List RoomOp) (r : RoomS) (p : Participant)
    (hlock : r.isLocked = true) (r' : RoomS) (hnolock : r'.isLocked = false)
    (hfull : r'.participantCount ≥ r'.maxParticipants) :
    ((RoomS.new uuid name maxParticipants now).runOps ops).participantCount ≤
        ((RoomS.new uuid name maxParticipants now).runOps ops).maxParticipants ∧
      r.addParticipant p = (.error .roomLocked, r) ∧
      r'.addParticipant p = (.error .roomFull, r') ∧
      (c2Step1.1 = .ok () ∧ c2Step2.1 = .ok () ∧
        c2Step3.1 = .error .roomFull ∧ c2Step4.1 = .ok ()) := by
  refine ⟨runOps_count (by simp [RoomS.new, RoomS.participantCount]) ops, ?_, ?_, ?_⟩
  · unfold RoomS.addParticipant
    rw [if_pos hlock]
  · unfold RoomS.addParticipant
    rw [if_neg (by simp [hnolock]),
      if_pos (show r'.participants.length ≥ r'.maxParticipants from hfull)]
  · exact ⟨rfl, rfl, rfl, rfl⟩

/-- Witness for C2 at concrete inputs: a locked room and a full unlocked
room both reject a new participant and are left unchanged. -/
theorem c2_room_capacity_witness :
    (RoomS.mk "L" "Locked" 0 4 true []).isLocked = true ∧
      ((RoomS.new "u" "Fresh" 3 0).runOps [RoomOp.add (Participant.new "q" "Q" 1)]).participantCount ≤
        ((RoomS.new "u" "Fresh" 3 0).runOps [RoomOp.add (Participant.new "q" "Q" 1)]).maxParticipants ∧
      (RoomS.mk "L" "Locked" 0 4 true []).addParticipant (Participant.new "p" "P" 5) =
        (.error .roomLocked, RoomS.mk "L" "Locked" 0 4 true []) ∧
      (RoomS.mk "F" "Full" 0 1 false [("a", Participant.new "a" "A" 0)]).addParticipant
          (Participant.new "p" "P" 5) =
        (.error .roomFull, RoomS.mk "F" "Full" 0 1 false [("a", Participant.new "a" "A" 0)]) := by
  have h := c2_room_capacity "u" "Fresh" 3 0 [RoomOp.add (Participant.new "q" "Q" 1)]
    (RoomS.mk "L" "Locked" 0 4 true []) (Participant.new "p" "P" 5) (by decide)
    (RoomS.mk "F" "Full" 0 1 false [("a", Participant.new "a" "A" 0)]) (by decide) (by decide)
  exact ⟨by decide, h.1, h.2.1, h.2.2.1⟩

/-! ## Real-time audio jitter buffer (src/udp_audio.rs) -/

/-- The age-bounded and count-bounded packet queue (struct
RealTimeAudioBuffer, src/udp_audio.rs).  The VecDeque becomes a list whose
head is the front of the queue; entries pair an arrival timestamp in
milliseconds with the payload. -/
structure RealTimeAudioBuffer where
  maxAgeMs : Nat
  packets : List (Nat × List Nat)
deriving Repr

/-- RealTimeAudioBuffer::new, src/udp_audio.rs. -/
def RealTimeAudioBuffer.new (maxAgeMs : Nat) : RealTimeAudioBuffer :=
  ⟨maxAgeMs, []⟩

/-- The eviction loop at the start of add_packet: pop entries from the
front while the front entry is strictly older than max_age_ms, stopping at
the first young entry. -/
def dropOld (now maxAge : Nat) : List (Nat × List Nat) → List (Nat × List Nat)
  | [] => []
  | (ts, d) :: rest =>
    if now - ts > maxAge then dropOld now maxAge rest else (ts, d) :: rest

/-- RealTimeAudioBuffer::add_packet, src/udp_audio.rs: evict old entries,
append the new one at the back, then pop the front once if the length still
exceeds 5.  The clock reading now (milliseconds) is an explicit argument. -/
def RealTimeAudioBuffer.addPacket (b : RealTimeAudioBuffer) (now : Nat) (data : List Nat) :
    RealTimeAudioBuffer :=
  let q := dropOld now b.maxAgeMs b.packets
  let q2 := q ++ [(now, data)]
  { b with packets := if q2.length > 5 then q2.tail else q2 }

/-- RealTimeAudioBuffer::get_next_packet, src/udp_audio.rs: pop the front
entry and return its payload; None when the buffer is empty. -/
def RealTimeAudioBuffer.getNextPacket (b : RealTimeAudioBuffer) :
    Option (List Nat) × RealTimeAudioBuffer :=
  match b.packets with
  | [] => (none, b)
  | (_, d) :: rest => (some d, { b with packets := rest })

/-- RealTimeAudioBuffer::buffer_age_ms, src/udp_audio.rs: newest arrival
time minus oldest arrival time, zero when the buffer is empty. -/
def RealTimeAudioBuffer.bufferAgeMs (b : RealTimeAudioBuffer) : Nat :=
  match b.packets.head?, b.packets.getLast? with
  | some oldest, some newest => newest.1 - oldest.1
  | _, _ => 0

/-- RealTimeAudioBuffer::len, src/udp_audio.rs. -/
def RealTimeAudioBuffer.len (b : RealTimeAudioBuffer) : Nat :=
  b.packets.length

/-- One buffer operation with its clock reading. -/
inductive AudioOp where
  | add (now : Nat) (data : List Nat)
  | getNext

/-- Apply one buffer operation, keeping only the state. -/
def RealTimeAudioBuffer.applyOp (b : RealTimeAudioBuffer) : AudioOp → RealTimeAudioBuffer
  | .add now data => b.addPacket now data
  | .getNext => b.getNextPacket.2

/-- The buffer state reached by a sequence of operations. -/
def RealTimeAudioBuffer.runOps (b : RealTimeAudioBuffer) (ops : List AudioOp) :
    RealTimeAudioBuffer :=
  ops.foldl RealTimeAudioBuffer.applyOp b

/-- The clock readings of the add operations of a sequence, in order. -/
def addTimes : List AudioOp → List Nat
  | [] => []
  | .add now _ :: rest => now :: addTimes rest
  | .getNext :: rest => addTimes rest

/-- The internal well-formedness of a buffer under a monotone clock:
bounded length, sorted arrival times, and age within max_age_ms. -/
def AudioInv (b : RealTimeAudioBuffer) : Prop :=
  b.packets.length ≤ 5 ∧
  List.Pairwise (· ≤ ·) (b.packets.map Prod.fst) ∧
  b.bufferAgeMs ≤ b.maxAgeMs

theorem dropOld_sublist (now maxAge : Nat) (l : List (Nat × List Nat)) :
    (dropOld now maxAge l).Sublist l := by
  induction l with
  | nil => simp [dropOld]
  | cons hd tl ih =>
    cases hd with
    | mk ts d =>
      unfold dropOld
      by_cases h : now - ts > maxAge
      · rw [if_pos h]
        exact ih.trans (List.sublist_cons_self _ _)
      · rw [if_neg h]

theorem dropOld_head_age {now maxAge : Nat} {l : List (Nat × List Nat)}
    {p : Nat × List Nat} (h : (dropOld now maxAge l).head? = some p) :
    now - p.1 ≤ maxAge := by
  induction l with
  | nil => simp [dropOld] at h
  | cons hd tl ih =>
    cases hd with
    | mk ts d =>
      unfold dropOld at h
      by_cases hc : now - ts > maxAge
      · rw [if_pos hc] at h
        exact ih h
      · rw [if_neg hc] at h
        simp only [List.head?_cons, Option.some.injEq] at h
        cases h
        simp only
        omega

theorem audioInv_addPacket {b : RealTimeAudioBuffer} {now : Nat} (data : List Nat)
    (h : AudioInv b) (hle : ∀ ts ∈ b.packets.map Prod.fst, ts ≤ now) :
    AudioInv (b.addPacket now data) ∧
      ∀ ts ∈ (b.addPacket now data).packets.map Prod.fst, ts ≤ now := by
  obtain ⟨hlen, hsort, _⟩ := h
  have hqsub : (dropOld now b.maxAgeMs b.packets).Sublist b.packets :=
    dropOld_sublist now b.maxAgeMs b.packets
  have hqsort : List.Pairwise (· ≤ ·) ((dropOld now b.maxAgeMs b.packets).map Prod.fst) :=
    List.Pairwise.sublist (hqsub.map Prod.fst) hsort
  have hqle : ∀ ts ∈ (dropOld now b.maxAgeMs b.packets).map Prod.fst, ts ≤ now :=
    fun ts hts => hle ts ((hqsub.map Prod.fst).mem hts)
  have hqlen : (dropOld now b.maxAgeMs b.packets).length ≤ 5 :=
    le_trans hqsub.length_le hlen
  have hmax : (b.addPacket now data).maxAgeMs = b.maxAgeMs := rfl
  have hpk : (b.addPacket now data).packets =
      if (dropOld now b.maxAgeMs b.packets ++ [(now, data)]).length > 5
      then (dropOld now b.maxAgeMs b.packets ++ [(now, data)]).tail
      else dropOld now b.maxAgeMs b.packets ++ [(now, data)] := rfl
  have h2sort : List.Pairwise (· ≤ ·)
      ((dropOld now b.maxAgeMs b.packets ++ [(now, data)]).map Prod.fst) := by
    rw [List.map_append, List.pairwise_append]
    refine ⟨hqsort, List.pairwise_singleton _ _, ?_⟩
    intro a ha y hy
    simp at hy
    subst hy
    exact hqle a ha
  have h2le : ∀ ts ∈ ((dropOld now b.maxAgeMs b.packets ++ [(now, data)]).map Prod.fst),
      ts ≤ now := by
    intro ts hts
    rw [List.map_append] at hts
    rcases List.mem_append.mp hts with hin | hin
    · exact hqle ts hin
    · simp at hin
      omega
  -- the final packet list, in both branches of the hard cap
  have hfinal : (b.addPacket now data).packets.Sublist
        (dropOld now b.maxAgeMs b.packets ++ [(now, data)]) ∧
      (b.addPacket now data).packets.length ≤ 5 ∧
      (b.addPacket now data).packets.getLast? = some (now, data) ∧
      ∀ p, (b.addPacket now data).packets.head? = some p → now - p.1 ≤ b.maxAgeMs := by
    rw [hpk]
    by_cases hpop : (dropOld now b.maxAgeMs b.packets ++ [(now, data)]).length > 5
    · rw [if_pos hpop]
      have hqne : dropOld now b.maxAgeMs b.packets ≠ [] := by
        intro hnil
        rw [hnil] at hpop
        simp at hpop
      cases hqc : dropOld now b.maxAgeMs b.packets with
      | nil => exact absurd hqc hqne
      | cons p0 qrest =>
        have htail : ((p0 :: qrest) ++ [(now, data)]).tail = qrest ++ [(now, data)] := rfl
        rw [htail]
        refine ⟨?_, ?_, List.getLast?_concat _, ?_⟩
        · exact List.sublist_cons_self _ _
        · have := hqlen
          rw [hqc] at this hpop
          simp at this hpop ⊢
          omega
        · intro p hp
          cases hqr : qrest with
          | nil =>
            rw [hqr] at hp
            have hpe : p = (now, data) := by simpa using hp.symm
            rw [hpe]
            simp
          | cons p1 qrest' =>
            rw [hqr] at hp
            have hpe : p = p1 := by simpa using hp.symm
            have hp0 : (dropOld now b.maxAgeMs b.packets).head? = some p0 := by
              rw [hqc]; rfl
            have hyoung : now - p0.1 ≤ b.maxAgeMs := dropOld_head_age hp0
            have hord : p0.1 ≤ p1.1 := by
              rw [hqc, hqr] at hqsort
              simp only [List.map_cons] at hqsort
              exact (List.pairwise_cons.mp hqsort).1 p1.1 (by simp)
            rw [hpe]
            omega
    · rw [if_neg hpop]
      refine ⟨List.Sublist.refl _, by omega, List.getLast?_concat _, ?_⟩
      intro p hp
      cases hqc : dropOld now b.maxAgeMs b.packets with
      | nil =>
        rw [hqc] at hp
        have hpe : p = (now, data) := by simpa using hp.symm
        rw [hpe]
        simp
      | cons p0 qrest =>
        rw [hqc] at hp
        have hpe : p = p0 := by simpa using hp.symm
        have hp0 : (dropOld now b.maxAgeMs b.packets).head? = some p0 := by
          rw [hqc]; rfl
        rw [hpe]
        exact dropOld_head_age hp0
  obtain ⟨hsub, hlen', hlast', hhead'⟩ := hfinal
  refine ⟨⟨hlen', List.Pairwise.sublist (hsub.map Prod.fst) h2sort, ?_⟩, ?_⟩
  · unfold RealTimeAudioBuffer.bufferAgeMs
    rw [hmax, hlast']
    cases hh : (b.addPacket now data).packets.head? with
    | none => simp
    | some p =>
      show now - p.1 ≤ b.maxAgeMs
      exact hhead' p hh
  · intro ts hts
    exact h2le ts ((hsub.map Prod.fst).mem hts)

theorem getNextPacket_snd_packets (b : RealTimeAudioBuffer) :
    b.getNextPacket.2.packets = b.packets.tail := by
  unfold RealTimeAudioBuffer.getNextPacket
  cases hbp : b.packets with
  | nil => exact hbp
  | cons p0 rest => rfl

theorem getNextPacket_snd_maxAgeMs (b : RealTimeAudioBuffer) :
    b.getNextPacket.2.maxAgeMs = b.maxAgeMs := by
  unfold RealTimeAudioBuffer.getNextPacket
  cases hbp : b.packets with
  | nil => rfl
  | cons p0 rest => rfl

theorem audioInv_getNext {b : RealTimeAudioBuffer} (h : AudioInv b) :
    AudioInv b.getNextPacket.2 := by
  obtain ⟨hlen, hsort, hage⟩ := h
  refine ⟨?_, ?_, ?_⟩
  · rw [getNextPacket_snd_packets]
    exact le_trans (List.tail_sublist _).length_le hlen
  · rw [getNextPacket_snd_packets]
    exact List.Pairwise.sublist ((List.tail_sublist _).map Prod.fst) hsort
  · unfold RealTimeAudioBuffer.bufferAgeMs
    rw [getNextPacket_snd_packets, getNextPacket_snd_maxAgeMs]
    cases hbp : b.packets with
    | nil => simp
    | cons p0 rest =>
      simp only [List.tail_cons]
      cases hr : rest with
      | nil => simp
      | cons p1 rest' =>
        unfold RealTimeAudioBuffer.bufferAgeMs at hage
        rw [hbp, hr] at hage
        cases hgl : (p1 :: rest').getLast? with
        | none => simp at hgl
        | some pn =>
          have hage' : pn.1 - p0.1 ≤ b.maxAgeMs := by
            have hgl0 : (p0 :: p1 :: rest').getLast? = some pn := by
              rw [List.getLast?_cons_cons, hgl]
            rw [List.head?_cons, hgl0] at hage
            exact hage
          have hord : p0.1 ≤ p1.1 := by
            rw [hbp, hr] at hsort
            simp only [List.map_cons] at hsort
            exact (List.pairwise_cons.mp hsort).1 p1.1 (by simp)
          show pn.1 - p1.1 ≤ b.maxAgeMs
          omega

theorem audioInv_run {b : RealTimeAudioBuffer} (ops : List AudioOp) (h : AudioInv b)
    (hsorted : List.Pairwise (· ≤ ·) (addTimes ops))
    (hfuture : ∀ ts ∈ b.packets.map Prod.fst, ∀ t ∈ addTimes ops, ts ≤ t) :
    AudioInv (b.runOps ops) := by
  induction ops generalizing b with
  | nil => exact h
  | cons op ops ih =>
    cases op with
    | add now data =>
      have hle : ∀ ts ∈ b.packets.map Prod.fst, ts ≤ now := fun ts hts =>
        hfuture ts hts now (by simp [addTimes])
      obtain ⟨h', hle'⟩ := audioInv_addPacket data h hle
      refine ih h' ?_ ?_
      · exact (List.pairwise_cons.mp (by simpa [addTimes] using hsorted)).2
      · intro ts hts t ht
        have hnow : now ≤ t :=
          (List.pairwise_cons.mp (by simpa [addTimes] using hsorted)).1 t ht
        exact le_trans (hle' ts hts) hnow
    | getNext =>
      refine ih (audioInv_getNext h) (by simpa [addTimes] using hsorted) ?_
      intro ts hts t ht
      have hsub : RealTimeAudioBuffer.getNextPacket b |>.2.packets.Sublist b.packets := by
        rw [getNextPacket_snd_packets]
        exact List.tail_sublist _
      exact hfuture ts ((hsub.map Prod.fst).mem hts) t (by simpa [addTimes] using ht)

/-- C9: under a non-decreasing clock, every buffer state reached from a
fresh RealTimeAudioBuffer by add_packet and get_next_packet calls holds at
most 5 packets with buffer_age_ms at most max_age_ms (in particular after
every add_packet), and get_next_packet on an empty buffer returns None and
leaves the buffer unchanged. -/
theorem c9_audio_buffer_bounds (maxAgeMs : Nat) (ops : List AudioOp)
    (hclock : List.Pairwise (· ≤ ·) (addTimes ops)) (b : RealTimeAudioBuffer)
    (hempty : b.packets = []) :
    ((RealTimeAudioBuffer.new maxAgeMs).runOps ops).len ≤ 5 ∧
      ((RealTimeAudioBuffer.new maxAgeMs).runOps ops).bufferAgeMs ≤ maxAgeMs ∧
      b.getNextPacket = (none, b) := by
  have h0 : AudioInv (RealTimeAudioBuffer.new maxAgeMs) := by
    refine ⟨by simp [RealTimeAudioBuffer.new], by simp [RealTimeAudioBuffer.new], ?_⟩
    simp [RealTimeAudioBuffer.new, RealTimeAudioBuffer.bufferAgeMs]
  have hrun := audioInv_run ops h0 hclock (by simp [RealTimeAudioBuffer.new])
  have hmaxrun : ((RealTimeAudioBuffer.new maxAgeMs).runOps ops).maxAgeMs = maxAgeMs := by
    have aux : ∀ (l : List AudioOp) (b : RealTimeAudioBuffer),
        (b.runOps l).maxAgeMs = b.maxAgeMs := by
      intro l
      induction l with
      | nil => intro b; rfl
      | cons op l ih =>
        intro b
        have hop : (b.applyOp op).maxAgeMs = b.maxAgeMs := by
          cases op with
          | add now data => rfl
          | getNext => exact getNextPacket_snd_maxAgeMs b
        exact (ih _).trans hop
    exact aux ops _
  refine ⟨hrun.1, le_trans hrun.2.2 (le_of_eq hmaxrun), ?_⟩
  unfold RealTimeAudioBuffer.getNextPacket
  rw [hempty]

/-- Witness for C9 at a concrete operation sequence with a monotone clock
and at the concrete empty buffer. -/
theorem c9_audio_buffer_bounds_witness :
    ((RealTimeAudioBuffer.new 150).runOps
        [AudioOp.add 10 [1], AudioOp.add 20 [2], AudioOp.getNext,
         AudioOp.add 200 [3]]).len ≤ 5 ∧
      ((RealTimeAudioBuffer.new 150).runOps
        [AudioOp.add 10 [1], AudioOp.add 20 [2], AudioOp.getNext,
         AudioOp.add 200 [3]]).bufferAgeMs ≤ 150 ∧
      (RealTimeAudioBuffer.new 150).getNextPacket = (none, RealTimeAudioBuffer.new 150) :=
  c9_audio_buffer_bounds 150
    [AudioOp.add 10 [1], AudioOp.add 20 [2], AudioOp.getNext, AudioOp.add 200 [3]]
    (by simp [addTimes]) (RealTimeAudioBuffer.new 150) rfl

/-! ## Fixed-width byte vectors

Helpers shared by the KEM embedding and the message framing: big-endian
encoding of a Nat into a fixed number of bytes, exactly the semantics of the
Rust fixed-size byte arrays and of u32::to_be_bytes (the value is reduced
modulo 256 ^ width). -/

/-- Big-endian fixed-width byte encoding of a natural number. -/
def natToBytesBE : Nat → Nat → List Nat
  | 0, _ => []
  | w + 1, n => natToBytesBE w (n / 256) ++ [n % 256]

/-- Big-endian byte decoding. -/
def bytesToNatBE (l : List Nat) : Nat :=
  l.foldl (fun acc b => acc * 256 + b) 0

theorem length_natToBytesBE (w n : Nat) : (natToBytesBE w n).length = w := by
  induction w generalizing n with
  | zero => rfl
  | succ w ih => simp [natToBytesBE, ih]

theorem bytesToNatBE_foldl (l : List Nat) (acc : Nat) :
    l.foldl (fun acc b => acc * 256 + b) acc =
      acc * 256 ^ l.length + l.foldl (fun acc b => acc * 256 + b) 0 := by
  induction l generalizing acc with
  | nil => simp
  | cons b l ih =>
    rw [List.foldl_cons, List.foldl_cons, ih (acc * 256 + b), ih (0 * 256 + b)]
    simp only [List.length_cons, pow_succ]
    ring

theorem bytesToNatBE_append_single (l : List Nat) (b : Nat) :
    bytesToNatBE (l ++ [b]) = bytesToNatBE l * 256 + b := by
  unfold bytesToNatBE
  rw [List.foldl_append]
  simp

theorem bytesToNatBE_natToBytesBE (w n : Nat) :
    bytesToNatBE (natToBytesBE w n) = n % 256 ^ w := by
  induction w generalizing n with
  | zero => simp [natToBytesBE, bytesToNatBE, Nat.mod_one]
  | succ w ih =>
    rw [natToBytesBE, bytesToNatBE_append_single, ih]
    have h256 : (256 : Nat) ^ (w + 1) = 256 * 256 ^ w := by
      rw [pow_succ]
      ring
    rw [h256, Nat.mod_mul]
    ring

theorem bytesToNatBE_natToBytesBE_of_lt {w n : Nat} (h : n < 256 ^ w) :
    bytesToNatBE (natToBytesBE w n) = n := by
  rw [bytesToNatBE_natToBytesBE]
  exact Nat.mod_eq_of_lt h

/-! ## Kyber KEM (src/crypto/kyber.rs)

The wrapper KyberKeyExchange lives in src/crypto/kyber.rs and is embedded
below exactly; the primitive it delegates to lives in the external crate
pqcrypto_kyber and is modelled from the specification. -/

/-- Errors of the Kyber wrapper (enum KyberError, src/crypto/kyber.rs). -/
inductive KyberError where
  | keyGenerationFailed
  | encapsulationFailed
  | decapsulationFailed
  | invalidPublicKeyLength
  | invalidCiphertextLength
  | invalidSecretKeyLength
deriving DecidableEq, Repr

/-- Modelled from the spec: the Kyber1024 ciphertext size of the external
pqcrypto_kyber crate, the structural well-formedness bound of a received
ciphertext. -/
def KYBER1024_CIPHERTEXT_BYTES : Nat := 1568

/-- Modelled from the spec: the Kyber1024 shared-secret size of the
external pqcrypto_kyber crate. -/
def KYBER1024_SHAREDSECRET_BYTES : Nat := 32

/-- Modelled from the spec: group modulus of the abstract KEM standing in
for the external Kyber1024 primitive.  The spec requires a KEM whose
decapsulation inverts encapsulation for matching key pairs and never errors
on well-formed ciphertexts; a discrete-exponentiation KEM over this modulus
realises both properties with executable definitions. -/
def kemP : Nat := 2 ^ 127 - 1

/-- Modelled from the spec: generator of the abstract KEM group. -/
def kemG : Nat := 3

/-- Modelled from the spec: kyber1024::keypair of the external crate;
the randomness of key generation is the explicit seed argument.  Returns
(public key value, secret key value). -/
def kyberKeypair (seed : Nat) : Nat × Nat :=
  (kemG ^ seed % kemP, seed)

/-- Modelled from the spec: kyber1024::encapsulate of the external crate;
the encapsulation randomness is the explicit argument r.  Returns
(shared secret value, ciphertext value), the order of the Rust library. -/
def kyberEncapsulateCore (pk r : Nat) : Nat × Nat :=
  (pk ^ r % kemP, kemG ^ r % kemP)

/-- Modelled from the spec: kyber1024::decapsulate of the external crate;
total on every ciphertext value, realising implicit rejection. -/
def kyberDecapsulateCore (sk ctv : Nat) : Nat :=
  ctv ^ sk % kemP

/-- Modelled from the spec: Ciphertext::from_bytes of pqcrypto_traits,
which fails exactly when the byte string has the wrong length. -/
def ciphertextFromBytes (bytes : List Nat) : Option Nat :=
  if bytes.length = KYBER1024_CIPHERTEXT_BYTES then some (bytesToNatBE bytes) else none

/-- The key-exchange handler (struct KyberKeyExchange, src/crypto/kyber.rs). -/
structure KyberKeyExchange where
  publicKey : Nat
  secretKey : Nat
deriving DecidableEq, Repr

/-- KyberKeyExchange::new, src/crypto/kyber.rs: generate a fresh key pair
(the key-generation randomness is the explicit seed). -/
def KyberKeyExchange.new (seed : Nat) : KyberKeyExchange :=
  ⟨(kyberKeypair seed).1, (kyberKeypair seed).2⟩

/-- KyberKeyExchange::encapsulate, src/crypto/kyber.rs: encapsulate against
a peer public key, returning (ciphertext bytes, shared secret bytes). -/
def KyberKeyExchange.encapsulate (peerPublicKey : Nat) (r : Nat) : List Nat × List Nat :=
  let core := kyberEncapsulateCore peerPublicKey r
  (natToBytesBE KYBER1024_CIPHERTEXT_BYTES core.2,
   natToBytesBE KYBER1024_SHAREDSECRET_BYTES core.1)

/-- KyberKeyExchange::decapsulate, src/crypto/kyber.rs: parse the
ciphertext bytes (an error becomes InvalidCiphertextLength), then
decapsulate with the stored secret key and return the shared secret
bytes. -/
def KyberKeyExchange.decapsulate (kx : KyberKeyExchange) (ciphertextBytes : List Nat) :
    Except KyberError (List Nat) :=
  match ciphertextFromBytes ciphertextBytes with
  | none => .error .invalidCiphertextLength
  | some ctv =>
    .ok (natToBytesBE KYBER1024_SHAREDSECRET_BYTES (kyberDecapsulateCore kx.secretKey ctv))

theorem kemP_lt : kemP < 256 ^ KYBER1024_CIPHERTEXT_BYTES := by
  have h1 : kemP < 2 ^ 127 := by
    unfold kemP
    have : (0 : Nat) < 2 ^ 127 := Nat.pos_pow_of_pos _ (by norm_num)
    omega
  calc kemP < 2 ^ 127 := h1
    _ ≤ 2 ^ (8 * KYBER1024_CIPHERTEXT_BYTES) := by
        apply Nat.pow_le_pow_right (by norm_num)
        norm_num [KYBER1024_CIPHERTEXT_BYTES]
    _ = 256 ^ KYBER1024_CIPHERTEXT_BYTES := by
        rw [show (256 : Nat) = 2 ^ 8 from rfl, ← pow_mul]

theorem pow_mod_pow_comm (g a b p : Nat) :
    (g ^ a % p) ^ b % p = (g ^ b % p) ^ a % p := by
  rw [← Nat.pow_mod, ← Nat.pow_mod, ← pow_mul, ← pow_mul, Nat.mul_comm]

theorem decapsulate_of_length {kx : KyberKeyExchange} {bytes : List Nat}
    (h : bytes.length = KYBER1024_CIPHERTEXT_BYTES) :
    kx.decapsulate bytes =
      .ok (natToBytesBE KYBER1024_SHAREDSECRET_BYTES
        (kyberDecapsulateCore kx.secretKey (bytesToNatBE bytes))) := by
  unfold KyberKeyExchange.decapsulate ciphertextFromBytes
  rw [if_pos h]

theorem decapsulate_error_of_length {kx : KyberKeyExchange} {bytes : List Nat}
    (h : bytes.length ≠ KYBER1024_CIPHERTEXT_BYTES) :
    kx.decapsulate bytes = .error .invalidCiphertextLength := by
  unfold KyberKeyExchange.decapsulate ciphertextFromBytes
  rw [if_neg h]

theorem encapsulate_fst_length (pk r : Nat) :
    (KyberKeyExchange.encapsulate pk r).1.length = KYBER1024_CIPHERTEXT_BYTES := by
  unfold KyberKeyExchange.encapsulate
  exact length_natToBytesBE _ _

/-- C3: decapsulating the ciphertext produced by encapsulation against the
public key of a key pair recovers exactly the encapsulated shared secret,
for every key-generation seed and every encapsulation randomness. -/
theorem c3_kem_round_trip (seed r : Nat) :
    (KyberKeyExchange.new seed).decapsulate
        (KyberKeyExchange.encapsulate (KyberKeyExchange.new seed).publicKey r).1 =
      .ok (KyberKeyExchange.encapsulate (KyberKeyExchange.new seed).publicKey r).2 := by
  rw [decapsulate_of_length (encapsulate_fst_length _ _)]
  have hct : bytesToNatBE
      (KyberKeyExchange.encapsulate (KyberKeyExchange.new seed).publicKey r).1 =
      (kyberEncapsulateCore (KyberKeyExchange.new seed).publicKey r).2 := by
    unfold KyberKeyExchange.encapsulate
    apply bytesToNatBE_natToBytesBE_of_lt
    calc (kyberEncapsulateCore (KyberKeyExchange.new seed).publicKey r).2
        < kemP := by
          unfold kyberEncapsulateCore
          exact Nat.mod_lt _ (by unfold kemP; norm_num)
      _ < 256 ^ KYBER1024_CIPHERTEXT_BYTES := kemP_lt
  rw [hct]
  have hcore : kyberDecapsulateCore (KyberKeyExchange.new seed).secretKey
      (kyberEncapsulateCore (KyberKeyExchange.new seed).publicKey r).2 =
      (kyberEncapsulateCore (KyberKeyExchange.new seed).publicKey r).1 := by
    unfold kyberDecapsulateCore kyberEncapsulateCore KyberKeyExchange.new kyberKeypair
    simp only
    exact pow_mod_pow_comm kemG r seed kemP
  rw [hcore]
  rw [show (KyberKeyExchange.encapsulate (KyberKeyExchange.new seed).publicKey r).2 =
    natToBytesBE KYBER1024_SHAREDSECRET_BYTES
      (kyberEncapsulateCore (KyberKeyExchange.new seed).publicKey r).1 from rfl]

/-- C4: decapsulate fails exactly on byte strings whose length differs from
the Kyber1024 ciphertext size, and then with InvalidCiphertextLength; on
every byte string of the right length, including a ciphertext encapsulated
against a different key pair, it returns Ok with some secret and never an
error. -/
theorem c4_decapsulate_errors_iff_malformed (kx kx2 : KyberKeyExchange)
    (bad good : List Nat) (r : Nat)
    (hbad : bad.length ≠ KYBER1024_CIPHERTEXT_BYTES)
    (hgood : good.length = KYBER1024_CIPHERTEXT_BYTES) :
    kx.decapsulate bad = .error .invalidCiphertextLength ∧
      (∃ ss, kx.decapsulate good = .ok ss) ∧
      (∀ e, kx.decapsulate good ≠ .error e) ∧
      (∃ ss, kx.decapsulate (KyberKeyExchange.encapsulate kx2.publicKey r).1 = .ok ss) := by
  refine ⟨decapsulate_error_of_length hbad, ?_, ?_, ?_⟩
  · rw [decapsulate_of_length hgood]
    exact ⟨_, rfl⟩
  · intro e
    rw [decapsulate_of_length hgood]
    simp
  · rw [decapsulate_of_length (encapsulate_fst_length kx2.publicKey r)]
    exact ⟨_, rfl⟩

/-- Witness for C4 at concrete inputs: a three-byte string is rejected with
InvalidCiphertextLength, a zero string of the right length and a foreign
ciphertext are both accepted. -/
theorem c4_decapsulate_errors_iff_malformed_witness :
    (KyberKeyExchange.new 7).decapsulate [1, 2, 3] = .error .invalidCiphertextLength ∧
      (∃ ss, (KyberKeyExchange.new 7).decapsulate
        (List.replicate KYBER1024_CIPHERTEXT_BYTES 0) = .ok ss) ∧
      (∀ e, (KyberKeyExchange.new 7).decapsulate
        (List.replicate KYBER1024_CIPHERTEXT_BYTES 0) ≠ .error e) ∧
      (∃ ss, (KyberKeyExchange.new 7).decapsulate
        (KyberKeyExchange.encapsulate (KyberKeyExchange.new 9).publicKey 5).1 = .ok ss) :=
  c4_decapsulate_errors_iff_malformed (KyberKeyExchange.new 7) (KyberKeyExchange.new 9)
    [1, 2, 3] (List.replicate KYBER1024_CIPHERTEXT_BYTES 0) 5
    (by simp [KYBER1024_CIPHERTEXT_BYTES])
    (by simp)

/-! ## Session key derivation (KyberSession::derive_key, src/crypto/kyber.rs)

The expansion loop lives in src and is embedded exactly; the primitive it
iterates, std DefaultHasher, is external and modelled from the
specification. -/

/-- Little-endian fixed-width byte encoding, the semantics of
u64::to_le_bytes when the width is 8. -/
def natToBytesLE : Nat → Nat → List Nat
  | 0, _ => []
  | w + 1, n => n % 256 :: natToBytesLE w (n / 256)

theorem length_natToBytesLE (w n : Nat) : (natToBytesLE w n).length = w := by
  induction w generalizing n with
  | zero => rfl
  | succ w ih => simp [natToBytesLE, ih]

theorem take_natToBytesLE (w1 w2 n : Nat) :
    (natToBytesLE (w1 + w2) n).take w1 = natToBytesLE w1 n := by
  induction w1 generalizing n with
  | zero => simp [natToBytesLE]
  | succ w1 ih =>
    rw [show w1 + 1 + w2 = (w1 + w2) + 1 by omega]
    simpa [natToBytesLE] using ih (n / 256)

theorem natToBytesLE_add_mul (w hi tag : Nat) (h : tag < 256 ^ w) :
    natToBytesLE w (256 ^ w * hi + tag) = natToBytesLE w tag := by
  induction w generalizing hi tag with
  | zero => rfl
  | succ w ih =>
    unfold natToBytesLE
    have hrw : (256 : Nat) ^ (w + 1) * hi + tag = 256 * (256 ^ w * hi) + tag := by ring
    rw [hrw, Nat.mul_add_mod, Nat.mul_add_div (by norm_num)]
    have htag : tag / 256 < 256 ^ w := by
      apply Nat.div_lt_of_lt_mul
      calc tag < 256 ^ (w + 1) := h
        _ = 256 * 256 ^ w := by ring
    rw [ih _ _ htag]

/-- Modelled from the spec: an injective-style accumulation of a byte list
into a natural number, the building block of the hasher model. -/
def encBytesNat (l : List Nat) : Nat :=
  l.foldl (fun a b => a * 257 + b + 1) 0

/-- Modelled from the spec: the finish() value of std DefaultHasher after
hashing (shared_secret, context, counter), which is external code.  The
spec requires an HKDF-class expansion whose different context labels never
collide over the same secret; the model realises this by carrying the
context label, reduced mod 2 ^ 32, in the low 32 bits of the 64-bit
output while the high 32 bits mix the secret and the counter. -/
def hasherFinish (secret context : List Nat) (counter : Nat) : Nat :=
  2 ^ 32 * (Nat.pair (encBytesNat secret) counter % 2 ^ 32) + encBytesNat context % 2 ^ 32

/-- The while loop of KyberSession::derive_key, src/crypto/kyber.rs: while
the result is shorter than the requested length, append the 8 little-endian
bytes of the hash of (secret, context, counter) and bump the counter. -/
def deriveLoop (secret context : List Nat) (len : Nat) (result : List Nat) (counter : Nat) :
    List Nat :=
  if result.length < len then
    deriveLoop secret context len
      (result ++ natToBytesLE 8 (hasherFinish secret context counter)) (counter + 1)
  else result
termination_by len - result.length
decreasing_by
  simp only [List.length_append, length_natToBytesLE]
  omega

/-- A completed key-exchange session (struct KyberSession,
src/crypto/kyber.rs). -/
structure KyberSession where
  sharedSecret : List Nat
deriving DecidableEq, Repr

/-- KyberSession::derive_key, src/crypto/kyber.rs: run the expansion loop
from an empty buffer and counter 0, then truncate to the requested
length. -/
def KyberSession.deriveKey (s : KyberSession) (context : List Nat) (len : Nat) : List Nat :=
  (deriveLoop s.sharedSecret context len [] 0).take len

theorem deriveLoop_length_ge (secret context : List Nat) (len : Nat) :
    ∀ (result : List Nat) (counter : Nat),
      len ≤ (deriveLoop secret context len result counter).length := by
  have aux : ∀ (fuel : Nat) (result : List Nat) (counter : Nat),
      len - result.length ≤ fuel →
      len ≤ (deriveLoop secret context len result counter).length := by
    intro fuel
    induction fuel with
    | zero =>
      intro result counter h
      rw [deriveLoop]
      rw [if_neg (by omega)]
      omega
    | succ fuel ih =>
      intro result counter h
      rw [deriveLoop]
      by_cases hlt : result.length < len
      · rw [if_pos hlt]
        apply ih
        simp only [List.length_append, length_natToBytesLE]
        omega
      · rw [if_neg hlt]
        omega
  intro result counter
  exact aux (len - result.length) result counter le_rfl

theorem deriveLoop_take (secret context : List Nat) (len : Nat) :
    ∀ (result : List Nat) (counter : Nat),
      (deriveLoop secret context len result counter).take result.length = result := by
  have aux : ∀ (fuel : Nat) (result : List Nat) (counter : Nat),
      len - result.length ≤ fuel →
      (deriveLoop secret context len result counter).take result.length = result := by
    intro fuel
    induction fuel with
    | zero =>
      intro result counter h
      rw [deriveLoop]
      rw [if_neg (by omega)]
      exact List.take_length _
    | succ fuel ih =>
      intro result counter h
      rw [deriveLoop]
      by_cases hlt : result.length < len
      · rw [if_pos hlt]
        have hih := ih (result ++ natToBytesLE 8 (hasherFinish secret context counter))
          (counter + 1) (by simp only [List.length_append, length_natToBytesLE]; omega)
        have hle : result.length ≤
            (result ++ natToBytesLE 8 (hasherFinish secret context counter)).length := by
          simp
        calc (deriveLoop secret context len
                (result ++ natToBytesLE 8 (hasherFinish secret context counter))
                (counter + 1)).take result.length
            = ((deriveLoop secret context len
                (result ++ natToBytesLE 8 (hasherFinish secret context counter))
                (counter + 1)).take
                  (result ++ natToBytesLE 8 (hasherFinish secret context counter)).length).take
                result.length := by
              rw [List.take_take, min_eq_left hle]
          _ = (result ++ natToBytesLE 8 (hasherFinish secret context counter)).take
                result.length := by rw [hih]
          _ = result := List.take_left' rfl
      · rw [if_neg hlt]
        exact List.take_length _
  intro result counter
  exact aux (len - result.length) result counter le_rfl

theorem deriveKey_take_4 (s : KyberSession) (context : List Nat) :
    (s.deriveKey context 32).take 4 = natToBytesLE 4 (encBytesNat context % 2 ^ 32) := by
  unfold KyberSession.deriveKey
  have h0 : deriveLoop s.sharedSecret context 32 [] 0 =
      deriveLoop s.sharedSecret context 32
        (natToBytesLE 8 (hasherFinish s.sharedSecret context 0)) 1 := by
    rw [deriveLoop]
    rw [if_pos (by simp)]
    rfl
  rw [h0, List.take_take]
  norm_num
  have h8 : (deriveLoop s.sharedSecret context 32
      (natToBytesLE 8 (hasherFinish s.sharedSecret context 0)) 1).take 8 =
      natToBytesLE 8 (hasherFinish s.sharedSecret context 0) := by
    have := deriveLoop_take s.sharedSecret context 32
      (natToBytesLE 8 (hasherFinish s.sharedSecret context 0)) 1
    rwa [length_natToBytesLE] at this
  calc (deriveLoop s.sharedSecret context 32
          (natToBytesLE 8 (hasherFinish s.sharedSecret context 0)) 1).take 4
      = ((deriveLoop s.sharedSecret context 32
          (natToBytesLE 8 (hasherFinish s.sharedSecret context 0)) 1).take 8).take 4 := by
        rw [List.take_take]
        norm_num
    _ = (natToBytesLE 8 (hasherFinish s.sharedSecret context 0)).take 4 := by rw [h8]
    _ = natToBytesLE 4 (hasherFinish s.sharedSecret context 0) :=
        take_natToBytesLE 4 4 _
    _ = natToBytesLE 4 (encBytesNat context % 2 ^ 32) := by
        unfold hasherFinish
        have h4 : (2 : Nat) ^ 32 = 256 ^ 4 := by norm_num
        rw [h4]
        exact natToBytesLE_add_mul 4 _ _ (by
          rw [← h4]
          exact Nat.mod_lt _ (by norm_num))

/-- C6: derive_key returns exactly the requested number of bytes for every
secret, context and length, and for every secret the 32-byte keys derived
under the context labels audio and video differ. -/
theorem c6_derive_key_length_and_context_separation (s : KyberSession)
    (context : List Nat) (n : Nat) :
    (s.deriveKey context n).length = n ∧
      s.deriveKey [97, 117, 100, 105, 111] 32 ≠ s.deriveKey [118, 105, 100, 101, 111] 32 := by
  constructor
  · unfold KyberSession.deriveKey
    rw [List.length_take]
    exact min_eq_left (deriveLoop_length_ge s.sharedSecret context n [] 0)
  · intro heq
    have h4 := congrArg (fun l => l.take 4) heq
    simp only at h4
    rw [deriveKey_take_4, deriveKey_take_4] at h4
    revert h4
    decide

/-! ## Signaling protocol (src/protocol.rs)

The message type and the 4-byte big-endian length framing live in src and
are embedded exactly.  The serde_json encoding is external code and is
modelled from the specification as a self-describing tagged token
encoding: one tag per variant, length-prefixed strings, byte arrays and
lists, 0/1-tagged options. -/

/-- Information about a room (struct RoomInfo, src/protocol.rs). -/
structure RoomInfo where
  id : String
  name : String
  participants : Nat
  maxParticipants : Nat
  isLocked : Bool
deriving DecidableEq, Repr

/-- Information about a participant (struct ParticipantInfo,
src/protocol.rs). -/
structure ParticipantInfo where
  id : String
  username : String
  audioEnabled : Bool
  videoEnabled : Bool
deriving DecidableEq, Repr

/-- Information about a server-wide user (struct ServerUserInfo,
src/protocol.rs). -/
structure ServerUserInfo where
  id : String
  username : String
  connectedAt : Nat
  currentRoom : Option String
  audioEnabled : Bool
  videoEnabled : Bool
deriving DecidableEq, Repr

/-- The closed set of signaling messages (enum SignalingMessage,
src/protocol.rs), with one constructor per Rust variant. -/
inductive SignalingMessage where
  | login (username : String)
  | listRooms
  | listServerUsers
  | createRoom (name : String) (maxParticipants : Option Nat)
  | joinRoom (roomId : String) (username : String)
  | leaveRoom
  | toggleAudio (enabled : Bool)
  | toggleVideo (enabled : Bool)
  | mediaOffer (targetId : String) (sdp : String)
  | mediaAnswer (targetId : String) (sdp : String)
  | iceCandidate (targetId : String) (candidate : String)
  | sendMessage (content : String)
  | audioData (data : List Nat)
  | keyExchangeInit (publicKey : List Nat)
  | keyExchangeResponse (ciphertext : List Nat)
  | loginResponse (success : Bool) (participantId : Option String) (error : Option String)
  | roomList (rooms : List RoomInfo)
  | serverUserList (users : List ServerUserInfo)
  | roomCreated (success : Bool) (roomId : Option String) (roomName : Option String)
      (error : Option String)
  | roomJoined (success : Bool) (roomId : Option String) (roomName : Option String)
      (participants : Option (List ParticipantInfo)) (error : Option String)
  | roomLeft (success : Bool) (error : Option String)
  | participantJoined (participantId : String) (username : String)
  | participantLeft (participantId : String)
  | audioToggled (participantId : String) (enabled : Bool)
  | videoToggled (participantId : String) (enabled : Bool)
  | messageReceived (senderId : String) (senderUsername : String) (content : String)
      (timestamp : Nat)
  | audioDataReceived (senderId : String) (data : List Nat)
  | error (message : String)
deriving DecidableEq, Repr

/-- Modelled from the spec: token encoding of an unsigned integer. -/
def encNat (n : Nat) : List Nat :=
  [n]

/-- Modelled from the spec: token encoding of a boolean. -/
def encBool (b : Bool) : List Nat :=
  [if b then 1 else 0]

/-- Modelled from the spec: length-prefixed token encoding of a string. -/
def encString (s : String) : List Nat :=
  s.data.length :: s.data.map Char.toNat

/-- Modelled from the spec: length-prefixed token encoding of a byte
array. -/
def encBytes (l : List Nat) : List Nat :=
  l.length :: l

/-- Modelled from the spec: 0/1-tagged token encoding of an option. -/
def encOption {α : Type} (f : α → List Nat) : Option α → List Nat
  | none => [0]
  | some x => 1 :: f x

/-- Modelled from the spec: length-prefixed token encoding of a list. -/
def encList {α : Type} (f : α → List Nat) (l : List α) : List Nat :=
  l.length :: (l.map f).join

/-- Modelled from the spec: field-concatenated encoding of RoomInfo. -/
def encRoomInfo (i : RoomInfo) : List Nat :=
  encString i.id ++ encString i.name ++ encNat i.participants ++
    encNat i.maxParticipants ++ encBool i.isLocked

/-- Modelled from the spec: field-concatenated encoding of
ParticipantInfo. -/
def encParticipantInfo (i : ParticipantInfo) : List Nat :=
  encString i.id ++ encString i.username ++ encBool i.audioEnabled ++ encBool i.videoEnabled

/-- Modelled from the spec: field-concatenated encoding of
ServerUserInfo. -/
def encServerUserInfo (i : ServerUserInfo) : List Nat :=
  encString i.id ++ encString i.username ++ encNat i.connectedAt ++
    encOption encString i.currentRoom ++ encBool i.audioEnabled ++ encBool i.videoEnabled

/-- Modelled from the spec: SignalingMessage::to_bytes via serde_json,
as the tag of the variant followed by its encoded fields. -/
def encodeMsg : SignalingMessage → List Nat
  | .login u => 0 :: encString u
  | .listRooms => [1]
  | .listServerUsers => [2]
  | .createRoom n mp => 3 :: (encString n ++ encOption encNat mp)
  | .joinRoom rid u => 4 :: (encString rid ++ encString u)
  | .leaveRoom => [5]
  | .toggleAudio e => 6 :: encBool e
  | .toggleVideo e => 7 :: encBool e
  | .mediaOffer t s => 8 :: (encString t ++ encString s)
  | .mediaAnswer t s => 9 :: (encString t ++ encString s)
  | .iceCandidate t c => 10 :: (encString t ++ encString c)
  | .sendMessage c => 11 :: encString c
  | .audioData d => 12 :: encBytes d
  | .keyExchangeInit pk => 13 :: encBytes pk
  | .keyExchangeResponse ct => 14 :: encBytes ct
  | .loginResponse s pid e =>
    15 :: (encBool s ++ encOption encString pid ++ encOption encString e)
  | .roomList rs => 16 :: encList encRoomInfo rs
  | .serverUserList us => 17 :: encList encServerUserInfo us
  | .roomCreated s rid rn e =>
    18 :: (encBool s ++ encOption encString rid ++ encOption encString rn ++
      encOption encString e)
  | .roomJoined s rid rn ps e =>
    19 :: (encBool s ++ encOption encString rid ++ encOption encString rn ++
      encOption (encList encParticipantInfo) ps ++ encOption encString e)
  | .roomLeft s e => 20 :: (encBool s ++ encOption encString e)
  | .participantJoined pid u => 21 :: (encString pid ++ encString u)
  | .participantLeft pid => 22 :: encString pid
  | .audioToggled pid e => 23 :: (encString pid ++ encBool e)
  | .videoToggled pid e => 24 :: (encString pid ++ encBool e)
  | .messageReceived sid su c ts =>
    25 :: (encString sid ++ encString su ++ encString c ++ encNat ts)
  | .audioDataReceived sid d => 26 :: (encString sid ++ encBytes d)
  | .error m => 27 :: encString m

/-- Modelled from the spec: token decoder of an unsigned integer. -/
def decNat : List Nat → Option (Nat × List Nat)
  | [] => none
  | n :: rest => some (n, rest)

/-- Modelled from the spec: token decoder of a boolean. -/
def decBool : List Nat → Option (Bool × List Nat)
  | 0 :: rest => some (false, rest)
  | 1 :: rest => some (true, rest)
  | _ => none

/-- Take exactly k tokens from the stream. -/
def decTake (k : Nat) (ts : List Nat) : Option (List Nat × List Nat) :=
  if k ≤ ts.length then some (ts.take k, ts.drop k) else none

/-- Modelled from the spec: token decoder of a string. -/
def decString (ts : List Nat) : Option (String × List Nat) := do
  let (n, r1) ← decNat ts
  let (cs, r2) ← decTake n r1
  some (⟨cs.map Char.ofNat⟩, r2)

/-- Modelled from the spec: token decoder of a byte array. -/
def decBytes (ts : List Nat) : Option (List Nat × List Nat) := do
  let (n, r1) ← decNat ts
  decTake n r1

/-- Modelled from the spec: token decoder of an option. -/
def decOption {α : Type} (g : List Nat → Option (α × List Nat)) :
    List Nat → Option (Option α × List Nat)
  | 0 :: rest => some (none, rest)
  | 1 :: rest => (g rest).map fun p => (some p.1, p.2)
  | _ => none

/-- Fixed-count repetition of a token decoder. -/
def decCount {α : Type} (g : List Nat → Option (α × List Nat)) :
    Nat → List Nat → Option (List α × List Nat)
  | 0, ts => some ([], ts)
  | n + 1, ts => do
    let (x, r1) ← g ts
    let (xs, r2) ← decCount g n r1
    some (x :: xs, r2)

/-- Modelled from the spec: token decoder of a list. -/
def decList {α : Type} (g : List Nat → Option (α × List Nat)) (ts : List Nat) :
    Option (List α × List Nat) := do
  let (n, r1) ← decNat ts
  decCount g n r1

/-- Modelled from the spec: token decoder of RoomInfo. -/
def decRoomInfo (ts : List Nat) : Option (RoomInfo × List Nat) := do
  let (id, r1) ← decString ts
  let (name, r2) ← decString r1
  let (ps, r3) ← decNat r2
  let (mx, r4) ← decNat r3
  let (lk, r5) ← decBool r4
  some (⟨id, name, ps, mx, lk⟩, r5)

/-- Modelled from the spec: token decoder of ParticipantInfo. -/
def decParticipantInfo (ts : List Nat) : Option (ParticipantInfo × List Nat) := do
  let (id, r1) ← decString ts
  let (u, r2) ← decString r1
  let (a, r3) ← decBool r2
  let (v, r4) ← decBool r3
  some (⟨id, u, a, v⟩, r4)

/-- Modelled from the spec: token decoder of ServerUserInfo. -/
def decServerUserInfo (ts : List Nat) : Option (ServerUserInfo × List Nat) := do
  let (id, r1) ← decString ts
  let (u, r2) ← decString r1
  let (c, r3) ← decNat r2
  let (cr, r4) ← decOption decString r3
  let (a, r5) ← decBool r4
  let (v, r6) ← decBool r5
  some (⟨id, u, c, cr, a, v⟩, r6)

/-- Modelled from the spec: the inverse of encodeMsg, dispatching on the
variant tag. -/
def decodeMsg : List Nat → Option (SignalingMessage × List Nat)
  | 0 :: rest => do
    let (u, r) ← decString rest
    some (.login u, r)
  | 1 :: rest => some (.listRooms, rest)
  | 2 :: rest => some (.listServerUsers, rest)
  | 3 :: rest => do
    let (n, r1) ← decString rest
    let (mp, r2) ← decOption decNat r1
    some (.createRoom n mp, r2)
  | 4 :: rest => do
    let (rid, r1) ← decString rest
    let (u, r2) ← decString r1
    some (.joinRoom rid u, r2)
  | 5 :: rest => some (.leaveRoom, rest)
  | 6 :: rest => do
    let (e, r) ← decBool rest
    some (.toggleAudio e, r)
  | 7 :: rest => do
    let (e, r) ← decBool rest
    some (.toggleVideo e, r)
  | 8 :: rest => do
    let (t, r1) ← decString rest
    let (s, r2) ← decString r1
    some (.mediaOffer t s, r2)
  | 9 :: rest => do
    let (t, r1) ← decString rest
    let (s, r2) ← decString r1
    some (.mediaAnswer t s, r2)
  | 10 :: rest => do
    let (t, r1) ← decString rest
    let (c, r2) ← decString r1
    some (.iceCandidate t c, r2)
  | 11 :: rest => do
    let (c, r) ← decString rest
    some (.sendMessage c, r)
  | 12 :: rest => do
    let (d, r) ← decBytes rest
    some (.audioData d, r)
  | 13 :: rest => do
    let (pk, r) ← decBytes rest
    some (.keyExchangeInit pk, r)
  | 14 :: rest => do
    let (ct, r) ← decBytes rest
    some (.keyExchangeResponse ct, r)
  | 15 :: rest => do
    let (s, r1) ← decBool rest
    let (pid, r2) ← decOption decString r1
    let (e, r3) ← decOption decString r2
    some (.loginResponse s pid e, r3)
  | 16 :: rest => do
    let (rs, r) ← decList decRoomInfo rest
    some (.roomList rs, r)
  | 17 :: rest => do
    let (us, r) ← decList decServerUserInfo rest
    some (.serverUserList us, r)
  | 18 :: rest => do
    let (s, r1) ← decBool rest
    let (rid, r2) ← decOption decString r1
    let (rn, r3) ← decOption decString r2
    let (e, r4) ← decOption decString r3
    some (.roomCreated s rid rn e, r4)
  | 19 :: rest => do
    let (s, r1) ← decBool rest
    let (rid, r2) ← decOption decString r1
    let (rn, r3) ← decOption decString r2
    let (ps, r4) ← decOption (decList decParticipantInfo) r3
    let (e, r5) ← decOption decString r4
    some (.roomJoined s rid rn ps e, r5)
  | 20 :: rest => do
    let (s, r1) ← decBool rest
    let (e, r2) ← decOption decString r1
    some (.roomLeft s e, r2)
  | 21 :: rest => do
    let (pid, r1) ← decString rest
    let (u, r2) ← decString r1
    some (.participantJoined pid u, r2)
  | 22 :: rest => do
    let (pid, r) ← decString rest
    some (.participantLeft pid, r)
  | 23 :: rest => do
    let (pid, r1) ← decString rest
    let (e, r2) ← decBool r1
    some (.audioToggled pid e, r2)
  | 24 :: rest => do
    let (pid, r1) ← decString rest
    let (e, r2) ← decBool r1
    some (.videoToggled pid e, r2)
  | 25 :: rest => do
    let (sid, r1) ← decString rest
    let (su, r2) ← decString r1
    let (c, r3) ← decString r2
    let (ts, r4) ← decNat r3
    some (.messageReceived sid su c ts, r4)
  | 26 :: rest => do
    let (sid, r1) ← decString rest
    let (d, r2) ← decBytes r1
    some (.audioDataReceived sid d, r2)
  | 27 :: rest => do
    let (m, r) ← decString rest
    some (.error m, r)
  | _ => none

/-- SignalingMessage::from_bytes, src/protocol.rs: decode and require the
whole input to be consumed, as serde_json::from_slice does. -/
def fromBytesMsg (ts : List Nat) : Option SignalingMessage :=
  match decodeMsg ts with
  | some (m, []) => some m
  | _ => none

/-- SignalingMessage::to_framed, src/protocol.rs: the encoded payload
prefixed by the 4-byte big-endian encoding of its length (the length is
reduced modulo 2 ^ 32 exactly as the Rust cast to u32 does). -/
def toFramed (m : SignalingMessage) : List Nat :=
  natToBytesBE 4 (encodeMsg m).length ++ encodeMsg m

theorem decNat_enc (n : Nat) (r : List Nat) : decNat (encNat n ++ r) = some (n, r) :=
  rfl

theorem decBool_enc (b : Bool) (r : List Nat) : decBool (encBool b ++ r) = some (b, r) := by
  cases b <;> rfl

theorem decTake_enc (l r : List Nat) : decTake l.length (l ++ r) = some (l, r) := by
  unfold decTake
  rw [if_pos (by simp), List.take_left' rfl, List.drop_left' rfl]

theorem decString_enc (s : String) (r : List Nat) :
    decString (encString s ++ r) = some (s, r) := by
  obtain ⟨d⟩ := s
  have h0 : encString ⟨d⟩ ++ r = d.length :: (d.map Char.toNat ++ r) := by
    simp [encString]
  rw [h0]
  unfold decString
  rw [show decNat (d.length :: (d.map Char.toNat ++ r)) =
    some (d.length, d.map Char.toNat ++ r) from rfl]
  have h1 : decTake d.length (d.map Char.toNat ++ r) = some (d.map Char.toNat, r) := by
    have := decTake_enc (d.map Char.toNat) r
    simpa using this
  simp only [Option.bind_eq_bind, Option.some_bind, h1]
  have hid : Char.ofNat ∘ Char.toNat = id := funext Char.ofNat_toNat
  simp [List.map_map, hid]

theorem decBytes_enc (l r : List Nat) : decBytes (encBytes l ++ r) = some (l, r) := by
  have h0 : encBytes l ++ r = l.length :: (l ++ r) := by simp [encBytes]
  rw [h0]
  unfold decBytes
  rw [show decNat (l.length :: (l ++ r)) = some (l.length, l ++ r) from rfl]
  simp only [Option.bind_eq_bind, Option.some_bind]
  exact decTake_enc l r

theorem decOption_enc {α : Type} (f : α → List Nat)
    (g : List Nat → Option (α × List Nat))
    (hfg : ∀ x r, g (f x ++ r) = some (x, r)) (o : Option α) (r : List Nat) :
    decOption g (encOption f o ++ r) = some (o, r) := by
  cases o with
  | none => rfl
  | some x =>
    have h0 : encOption f (some x) ++ r = 1 :: (f x ++ r) := by simp [encOption]
    rw [h0]
    show (g (f x ++ r)).map (fun p => (some p.1, p.2)) = some (some x, r)
    rw [hfg]
    rfl

theorem decCount_enc {α : Type} (f : α → List Nat)
    (g : List Nat → Option (α × List Nat))
    (hfg : ∀ x r, g (f x ++ r) = some (x, r)) (l : List α) (r : List Nat) :
    decCount g l.length ((l.map f).join ++ r) = some (l, r) := by
  induction l with
  | nil => rfl
  | cons x xs ih =>
    have h0 : ((x :: xs).map f).join ++ r = f x ++ ((xs.map f).join ++ r) := by
      simp
    rw [List.length_cons, h0]
    unfold decCount
    rw [hfg]
    simp only [Option.bind_eq_bind, Option.some_bind, ih]

theorem decList_enc {α : Type} (f : α → List Nat)
    (g : List Nat → Option (α × List Nat))
    (hfg : ∀ x r, g (f x ++ r) = some (x, r)) (l : List α) (r : List Nat) :
    decList g (encList f l ++ r) = some (l, r) := by
  have h0 : encList f l ++ r = l.length :: ((l.map f).join ++ r) := by simp [encList]
  rw [h0]
  unfold decList
  rw [show decNat (l.length :: ((l.map f).join ++ r)) =
    some (l.length, (l.map f).join ++ r) from rfl]
  simp only [Option.bind_eq_bind, Option.some_bind]
  exact decCount_enc f g hfg l r

theorem decRoomInfo_enc (i : RoomInfo) (r : List Nat) :
    decRoomInfo (encRoomInfo i ++ r) = some (i, r) := by
  obtain ⟨id, name, ps, mx, lk⟩ := i
  unfold encRoomInfo decRoomInfo
  simp only [List.append_assoc]
  rw [decString_enc]
  simp only [Option.bind_eq_bind, Option.some_bind]
  rw [decString_enc]
  simp only [Option.some_bind]
  rw [decNat_enc]
  simp only [Option.some_bind]
  rw [decNat_enc]
  simp only [Option.some_bind]
  rw [decBool_enc]
  rfl

theorem decParticipantInfo_enc (i : ParticipantInfo) (r : List Nat) :
    decParticipantInfo (encParticipantInfo i ++ r) = some (i, r) := by
  obtain ⟨id, u, a, v⟩ := i
  unfold encParticipantInfo decParticipantInfo
  simp only [List.append_assoc]
  rw [decString_enc]
  simp only [Option.bind_eq_bind, Option.some_bind]
  rw [decString_enc]
  simp only [Option.some_bind]
  rw [decBool_enc]
  simp only [Option.some_bind]
  rw [decBool_enc]
  rfl

theorem decServerUserInfo_enc (i : ServerUserInfo) (r : List Nat) :
    decServerUserInfo (encServerUserInfo i ++ r) = some (i, r) := by
  obtain ⟨id, u, c, cr, a, v⟩ := i
  unfold encServerUserInfo decServerUserInfo
  simp only [List.append_assoc]
  rw [decString_enc]
  simp only [Option.bind_eq_bind, Option.some_bind]
  rw [decString_enc]
  simp only [Option.some_bind]
  rw [decNat_enc]
  simp only [Option.some_bind]
  rw [decOption_enc encString decString decString_enc]
  simp only [Option.some_bind]
  rw [decBool_enc]
  simp only [Option.some_bind]
  rw [decBool_enc]
  rfl

set_option maxHeartbeats 1600000 in
theorem decodeMsg_enc (m : SignalingMessage) (r : List Nat) :
    decodeMsg (encodeMsg m ++ r) = some (m, r) := by
  cases m <;>
    simp only [encodeMsg, List.cons_append, List.nil_append, List.append_assoc, decodeMsg,
      Option.bind_eq_bind, Option.some_bind,
      decNat_enc, decBool_enc, decString_enc, decBytes_enc,
      decOption_enc encNat decNat decNat_enc,
      decOption_enc encString decString decString_enc,
      decOption_enc (encList encParticipantInfo) (decList decParticipantInfo)
        (decList_enc encParticipantInfo decParticipantInfo decParticipantInfo_enc),
      decList_enc encRoomInfo decRoomInfo decRoomInfo_enc,
      decList_enc encServerUserInfo decServerUserInfo decServerUserInfo_enc,
      decList_enc encParticipantInfo decParticipantInfo decParticipantInfo_enc]

/-- C5: for every signaling message, to_framed yields the 4-byte big-endian
encoding of the payload length followed by the payload, and from_bytes on
the payload decodes back to exactly the original message, for every
variant. -/
theorem c5_framing_round_trip (m : SignalingMessage) :
    (toFramed m).take 4 = natToBytesBE 4 ((toFramed m).drop 4).length ∧
      fromBytesMsg ((toFramed m).drop 4) = some m := by
  have hlen : (natToBytesBE 4 (encodeMsg m).length).length = 4 :=
    length_natToBytesBE _ _
  have htake : (toFramed m).take 4 = natToBytesBE 4 (encodeMsg m).length := by
    unfold toFramed
    exact List.take_left' hlen
  have hdrop : (toFramed m).drop 4 = encodeMsg m := by
    unfold toFramed
    exact List.drop_left' hlen
  refine ⟨?_, ?_⟩
  · rw [htake, hdrop]
  · rw [hdrop]
    unfold fromBytesMsg
    have h := decodeMsg_enc m []
    rw [List.append_nil] at h
    rw [h]

/-! ## Server message handling and broadcast (src/server/main.rs)

The per-connection state, the clients registry, the two broadcast helpers
and the relevant arms of handle_message.  The mpsc channel of a client is
embedded as the list of messages pushed onto it, in order; the
MediaForwarder field of ServerState plays no role in the verified
properties and is omitted. -/

/-- Per-connection state (struct ClientState, src/server/main.rs); the
message_tx channel is embedded as the ordered list of enqueued messages. -/
structure ClientState where
  participantId : String
  username : Option String
  sharedSecret : Option (List Nat)
  messageTx : List SignalingMessage
deriving DecidableEq, Repr

/-- Global server state (struct ServerState, src/server/main.rs). -/
structure ServerState where
  roomManager : RoomManager
  clients : List (String × ClientState)

/-- One message_tx.send in the broadcast loops: push the message onto the
queue of the client registered under the id, when present. -/
def sendToClient (cs : List (String × ClientState)) (pid : String)
    (msg : SignalingMessage) : List (String × ClientState) :=
  cs.map fun e =>
    if e.1 = pid then (e.1, { e.2 with messageTx := e.2.messageTx ++ [msg] }) else e

/-- broadcast_to_room, src/server/main.rs: send to every participant of the
room except the sender; silently do nothing when the room is gone. -/
def broadcastToRoom (st : ServerState) (roomId senderId : String)
    (msg : SignalingMessage) : ServerState :=
  match lookupA roomId st.roomManager.rooms with
  | none => st
  | some room =>
    { st with clients :=
        (room.getParticipantIds.foldl
          (fun cs pid => if pid ≠ senderId then sendToClient cs pid msg else cs)
          st.clients) }

/-- broadcast_to_room_all, src/server/main.rs: send to every participant of
the room including the sender. -/
def broadcastToRoomAll (st : ServerState) (roomId : String)
    (msg : SignalingMessage) : ServerState :=
  match lookupA roomId st.roomManager.rooms with
  | none => st
  | some room =>
    { st with clients :=
        (room.getParticipantIds.foldl
          (fun cs pid => sendToClient cs pid msg)
          st.clients) }

/-- The SendMessage arm of handle_message, src/server/main.rs: look up the
room of the sender, broadcast MessageReceived to the whole room including
the sender, and reply with the fixed acknowledgement.  The username comes
from the client state and the timestamp from the clock, both explicit
here. -/
def handleSendMessage (st : ServerState) (participantId : String)
    (username : Option String) (content : String) (now : Nat) :
    ServerState × SignalingMessage :=
  match st.roomManager.getParticipantRoom participantId with
  | some room =>
    (broadcastToRoomAll st room.id
      (.messageReceived participantId (username.getD "Unknown") content now),
     .error "Message sent")
  | none => (st, .error "Message sent")

/-- The AudioData arm of handle_message, src/server/main.rs: look up the
room of the sender and broadcast AudioDataReceived to every other
participant, excluding the sender. -/
def handleAudioData (st : ServerState) (participantId : String) (data : List Nat) :
    ServerState × SignalingMessage :=
  match st.roomManager.getParticipantRoom participantId with
  | some room =>
    (broadcastToRoom st room.id participantId (.audioDataReceived participantId data),
     .error "Audio forwarded")
  | none => (st, .error "Audio forwarded")

/-- The CreateRoom arm of handle_message, src/server/main.rs: create the
room with the requested capacity, defaulting to 10 when absent, and reply
RoomCreated. -/
def handleCreateRoom (st : ServerState) (uuid name : String)
    (maxParticipants : Option Nat) (now : Nat) : ServerState × SignalingMessage :=
  let res := st.roomManager.createRoom uuid name (maxParticipants.getD 10) now
  ({ st with roomManager := res.2 },
   .roomCreated true (some res.1.id) (some res.1.name) none)

theorem lookupA_sendToClient_self (cs : List (String × ClientState)) (pid : String)
    (msg : SignalingMessage) :
    lookupA pid (sendToClient cs pid msg) =
      (lookupA pid cs).map fun c => { c with messageTx := c.messageTx ++ [msg] } := by
  induction cs with
  | nil => rfl
  | cons e cs ih =>
    obtain ⟨k, v⟩ := e
    simp only [sendToClient, List.map_cons] at ih ⊢
    by_cases he : k = pid
    · subst he
      simp [lookupA_cons]
    · simp [lookupA_cons, he, ih]

theorem lookupA_sendToClient_ne {cid pid : String} (h : cid ≠ pid)
    (cs : List (String × ClientState)) (msg : SignalingMessage) :
    lookupA cid (sendToClient cs pid msg) = lookupA cid cs := by
  induction cs with
  | nil => rfl
  | cons e cs ih =>
    obtain ⟨k, v⟩ := e
    simp only [sendToClient, List.map_cons] at ih ⊢
    by_cases he : k = pid
    · subst he
      simp [lookupA_cons, Ne.symm h, ih]
    · by_cases hc : k = cid
      · subst hc
        simp [lookupA_cons, he]
      · simp [lookupA_cons, he, hc, ih]

theorem lookupA_foldl_send (pids : List String) (cs : List (String × ClientState))
    (msg : SignalingMessage) (cid : String) :
    lookupA cid (pids.foldl (fun cs pid => sendToClient cs pid msg) cs) =
      (lookupA cid cs).map
        (fun c => { c with messageTx := c.messageTx ++ List.replicate (pids.count cid) msg }) := by
  induction pids generalizing cs with
  | nil =>
    cases h : lookupA cid cs <;> simp [h]
  | cons p pids ih =>
    rw [List.foldl_cons, ih]
    by_cases hc : cid = p
    · subst hc
      rw [lookupA_sendToClient_self]
      cases h : lookupA cid cs with
      | none => simp
      | some c =>
        simp only [Option.map_some, List.count_cons, Option.some.injEq]
        simp [List.replicate_succ']
        rw [← List.replicate_succ, List.replicate_succ']
    · rw [lookupA_sendToClient_ne hc]
      simp [List.count_cons, hc]

theorem lookupA_foldl_send_excl (pids : List String) (senderId : String)
    (cs : List (String × ClientState)) (msg : SignalingMessage) (cid : String) :
    lookupA cid (pids.foldl
        (fun cs pid => if pid ≠ senderId then sendToClient cs pid msg else cs) cs) =
      if cid = senderId then lookupA cid cs
      else (lookupA cid cs).map
        (fun c => { c with messageTx := c.messageTx ++ List.replicate (pids.count cid) msg }) := by
  induction pids generalizing cs with
  | nil =>
    by_cases hc : cid = senderId
    · simp [hc]
    · cases h : lookupA cid cs <;> simp [hc, h]
  | cons p pids ih =>
    rw [List.foldl_cons]
    by_cases hp : p ≠ senderId
    · rw [if_pos hp, ih]
      by_cases hc : cid = senderId
      · rw [if_pos hc, if_pos hc]
        exact lookupA_sendToClient_ne (by rw [hc]; exact Ne.symm hp) cs msg
      · rw [if_neg hc, if_neg hc]
        by_cases hcp : cid = p
        · subst hcp
          rw [lookupA_sendToClient_self]
          cases h : lookupA cid cs with
          | none => simp
          | some c =>
            simp only [Option.map_some, List.count_cons, Option.some.injEq]
            simp [List.replicate_succ']
            rw [← List.replicate_succ, List.replicate_succ']
        · rw [lookupA_sendToClient_ne hcp]
          simp [List.count_cons, hcp]
    · rw [if_neg hp, ih]
      have hps : p = senderId := by
        by_contra hx
        exact hp hx
      by_cases hc : cid = senderId
      · rw [if_pos hc, if_pos hc]
      · rw [if_neg hc, if_neg hc]
        have : ¬cid = p := by
          rw [hps]
          exact hc
        simp [List.count_cons, this]

theorem handleSendMessage_of_room {st : ServerState} {participantId : String}
    {room : RoomS} (username : Option String) (content : String) (now : Nat)
    (h : st.roomManager.getParticipantRoom participantId = some room) :
    handleSendMessage st participantId username content now =
      (broadcastToRoomAll st room.id
        (.messageReceived participantId (username.getD "Unknown") content now),
       .error "Message sent") := by
  unfold handleSendMessage
  rw [h]

theorem handleAudioData_of_room {st : ServerState} {participantId : String}
    {room : RoomS} (data : List Nat)
    (h : st.roomManager.getParticipantRoom participantId = some room) :
    handleAudioData st participantId data =
      (broadcastToRoom st room.id participantId (.audioDataReceived participantId data),
       .error "Audio forwarded") := by
  unfold handleAudioData
  rw [h]

theorem broadcastToRoomAll_of_room {st : ServerState} {roomId : String} {room : RoomS}
    (msg : SignalingMessage) (h : lookupA roomId st.roomManager.rooms = some room) :
    broadcastToRoomAll st roomId msg =
      { st with clients :=
          (room.getParticipantIds.foldl
            (fun cs pid => sendToClient cs pid msg)
            st.clients) } := by
  unfold broadcastToRoomAll
  rw [h]

theorem broadcastToRoom_of_room {st : ServerState} {roomId : String} {room : RoomS}
    (senderId : String) (msg : SignalingMessage)
    (h : lookupA roomId st.roomManager.rooms = some room) :
    broadcastToRoom st roomId senderId msg =
      { st with clients :=
          (room.getParticipantIds.foldl
            (fun cs pid => if pid ≠ senderId then sendToClient cs pid msg else cs)
            st.clients) } := by
  unfold broadcastToRoom
  rw [h]

theorem getParticipantRoom_of (st : ServerState) {pid rid : String} {room : RoomS}
    (hidx : lookupA pid st.roomManager.participantRooms = some rid)
    (hroom : lookupA rid st.roomManager.rooms = some room) :
    st.roomManager.getParticipantRoom pid = some room := by
  unfold RoomManager.getParticipantRoom RoomManager.getRoom
  rw [hidx]
  simpa using hroom

/-- C7: when a room member sends SendMessage, a MessageReceived carrying the
content and the sender id is enqueued once on the queue of every current
room member that is a registered client, the sender included, and the queue
of every participant outside the room is untouched. -/
theorem c7_sendMessage_broadcast_all (st : ServerState) (pid rid : String)
    (room : RoomS) (username : Option String) (content : String) (now : Nat)
    (hidx : lookupA pid st.roomManager.participantRooms = some rid)
    (hroom : lookupA rid st.roomManager.rooms = some room)
    (hid : room.id = rid)
    (hmem : pid ∈ room.getParticipantIds)
    (hnodup : room.getParticipantIds.Nodup) :
    (∀ c, lookupA pid st.clients = some c →
      lookupA pid (handleSendMessage st pid username content now).1.clients =
        some { c with messageTx := c.messageTx ++
          [SignalingMessage.messageReceived pid (username.getD "Unknown") content now] }) ∧
    (∀ cid c, lookupA cid st.clients = some c → cid ∈ room.getParticipantIds →
      lookupA cid (handleSendMessage st pid username content now).1.clients =
        some { c with messageTx := c.messageTx ++
          [SignalingMessage.messageReceived pid (username.getD "Unknown") content now] }) ∧
    (∀ cid, cid ∉ room.getParticipantIds →
      lookupA cid (handleSendMessage st pid username content now).1.clients =
        lookupA cid st.clients) := by
  have hgr : st.roomManager.getParticipantRoom pid = some room :=
    getParticipantRoom_of st hidx hroom
  have hlook : lookupA room.id st.roomManager.rooms = some room := by
    rw [hid]
    exact hroom
  have hst : (handleSendMessage st pid username content now).1.clients =
      room.getParticipantIds.foldl
        (fun cs p => sendToClient cs p
          (.messageReceived pid (username.getD "Unknown") content now)) st.clients := by
    rw [handleSendMessage_of_room username content now hgr]
    rw [show (broadcastToRoomAll st room.id
        (.messageReceived pid (username.getD "Unknown") content now),
        (SignalingMessage.error "Message sent")).1 =
      broadcastToRoomAll st room.id
        (.messageReceived pid (username.getD "Unknown") content now) from rfl]
    rw [broadcastToRoomAll_of_room _ hlook]
  have hmember : ∀ cid c, lookupA cid st.clients = some c →
      cid ∈ room.getParticipantIds →
      lookupA cid (handleSendMessage st pid username content now).1.clients =
        some { c with messageTx := c.messageTx ++
          [SignalingMessage.messageReceived pid (username.getD "Unknown") content now] } := by
    intro cid c hc hcm
    rw [hst, lookupA_foldl_send, hc]
    rw [List.count_eq_one_of_mem hnodup hcm]
    rfl
  refine ⟨fun c hc => hmember pid c hc hmem, hmember, ?_⟩
  intro cid hout
  rw [hst, lookupA_foldl_send]
  rw [List.count_eq_zero_of_not_mem hout]
  cases h : lookupA cid st.clients <;> simp

/-- Witness scenario shared by the broadcast claims: a room R with members
A and B, and a third connected client C outside the room. -/
def demoRoom : RoomS :=
  ⟨"R", "Demo", 0, 10, false,
   [("A", Participant.new "A" "Alice" 0), ("B", Participant.new "B" "Bob" 0)]⟩

/-- Witness scenario server state: room R registered, A and B indexed to
it, clients A, B and C connected with empty queues. -/
def demoState : ServerState :=
  ⟨⟨[("R", demoRoom)], [("A", "R"), ("B", "R")]⟩,
   [("A", ⟨"A", some "Alice", none, []⟩),
    ("B", ⟨"B", some "Bob", none, []⟩),
    ("C", ⟨"C", some "Carl", none, []⟩)]⟩

/-- Witness for C7 in the concrete scenario: A sends hi; A and B both
receive MessageReceived, C receives nothing. -/
theorem c7_sendMessage_broadcast_all_witness :
    lookupA "A" (handleSendMessage demoState "A" (some "Alice") "hi" 5).1.clients =
        some ⟨"A", some "Alice", none,
          [SignalingMessage.messageReceived "A" "Alice" "hi" 5]⟩ ∧
      lookupA "B" (handleSendMessage demoState "A" (some "Alice") "hi" 5).1.clients =
        some ⟨"B", some "Bob", none,
          [SignalingMessage.messageReceived "A" "Alice" "hi" 5]⟩ ∧
      lookupA "C" (handleSendMessage demoState "A" (some "Alice") "hi" 5).1.clients =
        lookupA "C" demoState.clients := by
  have h := c7_sendMessage_broadcast_all demoState "A" "R" demoRoom (some "Alice") "hi" 5
    (by decide) (by decide) (by decide) (by decide) (by decide)
  refine ⟨?_, ?_, ?_⟩
  · exact h.1 ⟨"A", some "Alice", none, []⟩ (by decide)
  · exact h.2.1 "B" ⟨"B", some "Bob", none, []⟩ (by decide) (by decide)
  · exact h.2.2 "C" (by decide)

/-- C8: when a room member sends AudioData, AudioDataReceived is enqueued
once on the queue of every other current room member that is a registered
client, never on the queue of the sender, and the queue of every
participant outside the room is untouched. -/
theorem c8_audioData_excludes_sender (st : ServerState) (pid rid : String)
    (room : RoomS) (data : List Nat)
    (hidx : lookupA pid st.roomManager.participantRooms = some rid)
    (hroom : lookupA rid st.roomManager.rooms = some room)
    (hid : room.id = rid)
    (hnodup : room.getParticipantIds.Nodup) :
    (lookupA pid (handleAudioData st pid data).1.clients = lookupA pid st.clients) ∧
    (∀ cid c, cid ≠ pid → lookupA cid st.clients = some c →
      cid ∈ room.getParticipantIds →
      lookupA cid (handleAudioData st pid data).1.clients =
        some { c with messageTx := c.messageTx ++
          [SignalingMessage.audioDataReceived pid data] }) ∧
    (∀ cid, cid ≠ pid → cid ∉ room.getParticipantIds →
      lookupA cid (handleAudioData st pid data).1.clients = lookupA cid st.clients) := by
  have hgr : st.roomManager.getParticipantRoom pid = some room :=
    getParticipantRoom_of st hidx hroom
  have hlook : lookupA room.id st.roomManager.rooms = some room := by
    rw [hid]
    exact hroom
  have hst : (handleAudioData st pid data).1.clients =
      room.getParticipantIds.foldl
        (fun cs p => if p ≠ pid then sendToClient cs p (.audioDataReceived pid data) else cs)
        st.clients := by
    rw [handleAudioData_of_room data hgr]
    rw [show (broadcastToRoom st room.id pid (.audioDataReceived pid data),
        (SignalingMessage.error "Audio forwarded")).1 =
      broadcastToRoom st room.id pid (.audioDataReceived pid data) from rfl]
    rw [broadcastToRoom_of_room pid _ hlook]
  refine ⟨?_, ?_, ?_⟩
  · rw [hst, lookupA_foldl_send_excl]
    rw [if_pos rfl]
  · intro cid c hne hc hcm
    rw [hst, lookupA_foldl_send_excl, if_neg hne, hc]
    rw [List.count_eq_one_of_mem hnodup hcm]
    rfl
  · intro cid hne hout
    rw [hst, lookupA_foldl_send_excl, if_neg hne]
    rw [List.count_eq_zero_of_not_mem hout]
    cases h : lookupA cid st.clients <;> simp

/-- Witness for C8 in the concrete scenario: A sends audio; B receives
AudioDataReceived, the queue of A stays as it was, C receives nothing. -/
theorem c8_audioData_excludes_sender_witness :
    lookupA "A" (handleAudioData demoState "A" [9, 9]).1.clients =
        lookupA "A" demoState.clients ∧
      lookupA "B" (handleAudioData demoState "A" [9, 9]).1.clients =
        some ⟨"B", some "Bob", none, [SignalingMessage.audioDataReceived "A" [9, 9]]⟩ ∧
      lookupA "C" (handleAudioData demoState "A" [9, 9]).1.clients =
        lookupA "C" demoState.clients := by
  have h := c8_audioData_excludes_sender demoState "A" "R" demoRoom [9, 9]
    (by decide) (by decide) (by decide) (by decide)
  refine ⟨h.1, ?_, ?_⟩
  · exact h.2.1 "B" ⟨"B", some "Bob", none, []⟩ (by decide) (by decide) (by decide)
  · exact h.2.2 "C" (by decide) (by decide)

/-- C10: handling CreateRoom with an absent max_participants creates the
room with capacity exactly 10, and the reply reports success with the new
id and name. -/
theorem c10_createRoom_default_capacity (st : ServerState) (uuid name : String)
    (now : Nat) :
    lookupA uuid (handleCreateRoom st uuid name none now).1.roomManager.rooms =
        some (RoomS.new uuid name 10 now) ∧
      (RoomS.new uuid name 10 now).maxParticipants = 10 ∧
      (handleCreateRoom st uuid name none now).2 =
        .roomCreated true (some uuid) (some name) none := by
  refine ⟨?_, rfl, rfl⟩
  unfold handleCreateRoom RoomManager.createRoom
  exact lookupA_insertA_self _ _ _

end PQCChat

